import Mathlib

/-!
Shallow embedding of the `soc_climb` social-graph library (graph store,
edge-inference engine, Dijkstra path solver) and proofs of the behavioural
claims about it.

Python dictionaries are modelled as insertion-ordered association lists
(`List (K × V)`); Python floats are modelled as exact rationals together with
an explicit non-finite marker (`PyFloat`) where finiteness checks matter.
Mutating methods are modelled as pure functions `state → state × Option error`
that thread the state through in program order, so that "no partial mutation
on failure" is a provable property rather than a modelling artifact.
-/

attribute [local semireducible] Rat.add Rat.sub Rat.mul Rat.inv

namespace SocClimb

/-! ## Association-list model of Python `dict` -/

section AListOps

variable {K V : Type} [DecidableEq K]

/-- `d.get(k)` on an insertion-ordered dict modelled as an association list. -/
def getA : List (K × V) → K → Option V
  | [], _ => none
  | kv :: rest, k => if kv.1 = k then some kv.2 else getA rest k

/-- `k in d`. -/
def containsA (l : List (K × V)) (k : K) : Bool :=
  (getA l k).isSome

/-- `d[k] = v`: update in place when the key exists (Python dicts keep the
original position), append otherwise. -/
def setA : List (K × V) → K → V → List (K × V)
  | [], k, v => [(k, v)]
  | kv :: rest, k, v => if kv.1 = k then (k, v) :: rest else kv :: setA rest k v

/-- `d.pop(k, None)`: drop the entry for `k`. -/
def eraseA : List (K × V) → K → List (K × V)
  | [], _ => []
  | kv :: rest, k => if kv.1 = k then eraseA rest k else kv :: eraseA rest k

/-- `d.setdefault(k, v)`. -/
def setdA (l : List (K × V)) (k : K) (v : V) : List (K × V) :=
  if containsA l k then l else l ++ [(k, v)]

/-- The keys, in insertion order. -/
def keysA (l : List (K × V)) : List K :=
  l.map (·.1)

end AListOps

/-! ## Python floats

Arithmetic is modelled on exact rationals; what the embedding keeps from IEEE
floats is the distinction between finite values and the non-finite inputs
(`nan`, `±inf`) that the graph store's validation rejects.  All values the
store itself produces are finite. -/

inductive PyFloat where
  | fin (q : ℚ)
  | nan
  | inf
  | ninf
deriving DecidableEq

/-- `math.isfinite`. -/
def PyFloat.isfinite : PyFloat → Bool
  | .fin _ => true
  | _ => false

/-- The rational carried by a finite value (only consulted on finite values). -/
def PyFloat.toRat : PyFloat → ℚ
  | .fin q => q
  | _ => 0

theorem PyFloat.toRat_fin (q : ℚ) : (PyFloat.fin q).toRat = q := rfl

/-! ## Data model (`models.py` and the legacy person record)

`src/soc_climb/models.py` in the snapshot only defines the refactored
`PersonNode` (with `family_friends_links`), while `graph.py`, `auto_edges.py`
and `pathfinding.py` are written against the legacy person record with
`close_connections`, `family_links`, `family`, `status_score` and `grad_year`
fields.  That legacy record is not under `src/`; it is modelled from the spec
below. -/

/-- A role held at an organisation over time (`DecisionNode`).  The `start`
and `end` ISO date strings are modelled post-parsing as optional day ordinals
(`none` = missing or unparseable, exactly what `_parse_iso` yields). -/
structure DecisionNode where
  org : String
  role : String
  start : Option ℤ := none
  stop : Option ℤ := none
deriving DecidableEq

/-- Modelled from the spec: an explicit relationship record
`{other_person_id?, relationship label, alliance_signal}` (the `FamilyLink`
record imported by the package but absent from `src/`). -/
structure FamilyLink where
  person_id : Option String := none
  relationship : String := ""
  alliance_signal : Bool := false
deriving DecidableEq

/-- Modelled from the spec: the person record consumed by the graph store,
the edge-inference engine and the path solver.  The fields
`close_connections` (the close/explicit relationship set), `family_links`
(explicit family-relationship records), `family` (the shared surname label),
`status_score` and `grad_year` (descriptive attributes used only in path-node
snapshots) are missing from `src/soc_climb/models.py` but are required by the
callers in `src/`; they are modelled from the spec's §3 data model. -/
structure PersonNode where
  id : String
  name : String := ""
  schools : List String := []
  employers : List String := []
  location : String := ""
  tier : Option ℤ := none
  dependency_weight : ℤ := 3
  decision_nodes : List DecisionNode := []
  platforms : List (String × String) := []
  societies : List (String × ℤ) := []
  ecosystems : List String := []
  family : String := ""
  family_links : List FamilyLink := []
  close_connections : List String := []
  status_score : Option ℚ := none
  grad_year : Option ℤ := none
  notes : String := ""
deriving DecidableEq

/-! ## Graph store (`graph.py`) -/

/-- The spec's error taxonomy (§7); the code raises `ValueError`/`KeyError`
with corresponding messages. -/
inductive GraphError where
  | duplicateId
  | unknownPerson
  | selfLoop
  | invalidWeight
  | invalidArgument
  | corruptPath
deriving DecidableEq

/-- In-memory adjacency representation of the social graph (`SocGraph`).
`max_weight_cache`/`max_weight_stale` model the `_max_weight` /
`_max_weight_stale` attributes. -/
structure SocGraph where
  people : List (String × PersonNode) := []
  adjacency : List (String × List (String × ℚ)) := []
  edge_contexts : List ((String × String) × List (String × ℚ)) := []
  max_weight_cache : ℚ := 0
  max_weight_stale : Bool := false
deriving DecidableEq

namespace SocGraph

/-- `SocGraph()`. -/
def empty : SocGraph := {}

/-- `ensure_person`: `none` when present, the raised error otherwise. -/
def ensure_person (g : SocGraph) (pid : String) : Option GraphError :=
  if containsA g.people pid then none else some .unknownPerson

/-- `add_person(person, overwrite)`. -/
def add_person (g : SocGraph) (p : PersonNode) (overwrite : Bool) :
    SocGraph × Option GraphError :=
  if containsA g.people p.id ∧ overwrite = false then
    (g, some .duplicateId)
  else
    ({ g with
        people := setA g.people p.id p
        adjacency := setdA g.adjacency p.id [] }, none)

/-- The strip of one remaining person performed by `remove_person`:
drop `pid` from `close_connections` and from `family_links` (by
`link.person_id`). -/
def stripPerson (pid : String) (p : PersonNode) : PersonNode :=
  { p with
      close_connections := p.close_connections.filter (fun c => c ≠ pid)
      family_links := p.family_links.filter (fun l => l.person_id ≠ some pid) }

/-- `remove_person(person_id)`. -/
def remove_person (g : SocGraph) (pid : String) : SocGraph × Option GraphError :=
  match g.ensure_person pid with
  | some e => (g, some e)
  | none =>
    let people1 := eraseA g.people pid
    -- `outgoing = self._adjacency.pop(person_id, {})`
    let outgoing := (getA g.adjacency pid).getD []
    let adj1 := eraseA g.adjacency pid
    -- drop the contexts of the outgoing edges
    let ctx1 := outgoing.foldl (fun c kv => eraseA c (pid, kv.1)) g.edge_contexts
    -- incoming edges: pop `pid` from every remaining row, dropping the
    -- context only when the edge was present
    let ctx2 := adj1.foldl
      (fun c row => if containsA row.2 pid then eraseA c (row.1, pid) else c) ctx1
    let adj2 := adj1.map (fun row => (row.1, eraseA row.2 pid))
    -- strip `pid` from every remaining person's explicit relationship lists
    let people2 := people1.map (fun kv => (kv.1, stripPerson pid kv.2))
    ({ g with
        people := people2
        adjacency := adj2
        edge_contexts := ctx2
        max_weight_stale := true }, none)

/-- `_remove_edge(source, target)`.  Note
`self._adjacency.get(source, {}).pop(target, None)` does not create a row for
an absent source. -/
def removeEdge (g : SocGraph) (s t : String) : SocGraph :=
  let row := (getA g.adjacency s).getD []
  let w? := getA row t
  let adj' := if containsA g.adjacency s then setA g.adjacency s (eraseA row t)
              else g.adjacency
  let stale' := match w? with
    | some w => if g.max_weight_cache ≤ w then true else g.max_weight_stale
    | none => g.max_weight_stale
  { g with
      adjacency := adj'
      edge_contexts := eraseA g.edge_contexts (s, t)
      max_weight_stale := stale' }

/-- Accumulate the context deltas (`context_map[name] += delta`). -/
def addContexts (base : List (String × ℚ)) (ctxs : List (String × ℚ)) :
    List (String × ℚ) :=
  ctxs.foldl (fun m nd => setA m nd.1 ((getA m nd.1).getD 0 + nd.2)) base

/-- `_increment_edge(source, target, weight_delta, contexts)`.  The
`self._adjacency[source]` defaultdict access materialises an empty row for an
absent source, which `setA` reproduces. -/
def incrementEdge (g : SocGraph) (s t : String) (delta : ℚ)
    (ctxs : List (String × ℚ)) : SocGraph :=
  let row := (getA g.adjacency s).getD []
  let current := (getA row t).getD 0
  let w := current + delta
  if w ≤ 0 then
    { g with
        adjacency := setA g.adjacency s (eraseA row t)
        edge_contexts := eraseA g.edge_contexts (s, t)
        max_weight_stale := true }
  else
    let stale' := if w < current ∧ g.max_weight_cache ≤ current then true
                  else g.max_weight_stale
    let cache' := if g.max_weight_cache < w then w else g.max_weight_cache
    let ctx' := if ctxs = [] then g.edge_contexts
                else setA g.edge_contexts (s, t)
                  (addContexts ((getA g.edge_contexts (s, t)).getD []) ctxs)
    { g with
        adjacency := setA g.adjacency s (setA row t w)
        edge_contexts := ctx'
        max_weight_cache := cache'
        max_weight_stale := stale' }

/-- `add_connection(person_a, person_b, weight_delta, contexts, symmetric)`.
All validation happens before any mutation, in source order. -/
def add_connection (g : SocGraph) (a b : String) (delta : PyFloat)
    (ctxs : List (String × PyFloat)) (symmetric : Bool) :
    SocGraph × Option GraphError :=
  if a = b then (g, some .selfLoop)
  else if delta.isfinite = false then (g, some .invalidWeight)
  else if ctxs.any (fun c => c.2.isfinite = false) then (g, some .invalidWeight)
  else if (containsA g.people a) = false then (g, some .unknownPerson)
  else if (containsA g.people b) = false then (g, some .unknownPerson)
  else
    let ctxQ := ctxs.map (fun c => (c.1, c.2.toRat))
    let g1 := incrementEdge g a b delta.toRat ctxQ
    let g2 := if symmetric then incrementEdge g1 b a delta.toRat ctxQ else g1
    (g2, none)

/-- `remove_connection(person_a, person_b, symmetric)`. -/
def remove_connection (g : SocGraph) (a b : String) (symmetric : Bool) :
    SocGraph × Option GraphError :=
  match g.ensure_person a with
  | some e => (g, some e)
  | none =>
    match g.ensure_person b with
    | some e => (g, some e)
    | none =>
      let g1 := removeEdge g a b
      let g2 := if symmetric then removeEdge g1 b a else g1
      (g2, none)

/-- `get_edge_weight(person_a, person_b)`. -/
def get_edge_weight (g : SocGraph) (a b : String) : Option ℚ :=
  getA ((getA g.adjacency a).getD []) b

/-- `edge_contexts(source, target)`. -/
def edge_contexts_of (g : SocGraph) (s t : String) : List (String × ℚ) :=
  (getA g.edge_contexts (s, t)).getD []

/-- `degree(person_id)`. -/
def degree (g : SocGraph) (pid : String) : ℕ :=
  ((getA g.adjacency pid).getD []).length

/-- The list of weights enumerated by `_iter_weights` (finiteness is
automatic for rationals, the `weight > 0` filter is kept). -/
def storedWeights (g : SocGraph) : List ℚ :=
  (g.adjacency.flatMap (fun row => row.2.map (·.2))).filter (fun w => 0 < w)

/-- `max(..., default=0.0)` over a list of rationals. -/
def listMax (l : List ℚ) : ℚ :=
  l.foldr max 0

/-- `max_weight()`: recompute when the cache is stale.  (The Python method
also writes the recomputed value back; the returned value is what the claims
are about.) -/
def max_weight (g : SocGraph) : ℚ :=
  if g.max_weight_stale then listMax g.storedWeights else g.max_weight_cache

end SocGraph

/-! ## Edge-inference engine (`auto_edges.py`)

Calendar dates are modelled post-parsing as day ordinals (`ℤ`); `_parse_iso`'s
output (`None` for a missing or unparseable field) is what every scoring
helper consumes, so `DecisionNode.start`/`stop` already hold that `Option`. -/

def MIN_DISTANCE : ℤ := 1

def MIN_INFERRED_DISTANCE : ℤ := 2

def MAX_DISTANCE : ℤ := 12

def RELEVANCE_THRESHOLD : ℤ := 5

def SCORE_DIVISOR : ℤ := 2

def MAX_CLOSENESS_STEPS : ℤ := 10

def CAP_SCHOOLS : ℤ := 6

def CAP_EMPLOYERS : ℤ := 8

def CAP_ECOSYSTEMS : ℤ := 4

def CAP_PLATFORMS : ℤ := 2

def CAP_LOCATION : ℤ := 2

def CAP_DECISION : ℤ := 10

def CAP_SOCIETIES : ℤ := 8

def CAP_FAMILY : ℤ := 8

def EXPLICIT_DISTANCE : ℤ := 2

/-- `_years_ago(value, today)` (floor division of the day delta by 365). -/
def yearsAgo (value : Option ℤ) (today : ℤ) : Option ℤ :=
  match value with
  | none => none
  | some v =>
    let delta_days := today - v
    if delta_days < 0 then some 0 else some (Int.fdiv delta_days 365)

/-- `_clip_int(value, low, high)`. -/
def clipInt (value low high : ℤ) : ℤ :=
  if value < low then low else if high < value then high else value

/-- `|set(a) ∩ set(b)|`: the number of distinct common elements. -/
def intersectionCount (a b : List String) : ℕ :=
  (a.dedup.filter (fun x => x ∈ b)).length

/-- `_set_overlap_points(weight, values_a, values_b)`. -/
def setOverlapPoints (weight : ℤ) (a b : List String) : ℤ :=
  if a = [] ∨ b = [] then 0 else weight * (intersectionCount a b : ℤ)

/-- `_society_score(societies_a, societies_b)`. -/
def societyScore (sa sb : List (String × ℤ)) : ℤ :=
  sa.foldl
    (fun score nr =>
      match getA sb nr.1 with
      | none => score
      | some rank_b => score + max 1 (4 - |nr.2 - rank_b|)) 0

/-- `_tier_assortativity(tier_a, tier_b)`. -/
def tierAssortativity (ta tb : Option ℤ) : ℤ :=
  match ta, tb with
  | some a, some b => if |a - b| = 0 then 2 else if |a - b| = 1 then 1 else 0
  | _, _ => 0

/-- `effective_end < other_start`, where a missing end date stands for
`date.max`, an upper bound for every date (so the comparison is `False`). -/
def effEndBefore (e : Option ℤ) (s : ℤ) : Bool :=
  match e with
  | some x => x < s
  | none => false

/-- `_date_ranges_overlap(a_start, a_end, b_start, b_end)`. -/
def dateRangesOverlap (as_ ae bs be : Option ℤ) : Bool :=
  match as_, bs with
  | some a, some b => !(effEndBefore ae b || effEndBefore be a)
  | _, _ => false

/-- `_pair_decision_score(a_start, a_end, b_start, b_end, today)`. -/
def pairDecisionScore (as_ ae bs be : Option ℤ) (today : ℤ) : ℤ :=
  if dateRangesOverlap as_ ae bs be then 6
  else
    let a_ref := ae <|> as_
    let b_ref := be <|> bs
    match yearsAgo a_ref today, yearsAgo b_ref today with
    | some years_a, some years_b =>
      let most_recent_years := min years_a years_b
      if most_recent_years < 3 then 3 else if most_recent_years < 7 then 2 else 1
    | _, _ => 1

/-- The per-person grouping built by `_decision_node_overlap_score`
(`org → list of (start, end) pairs`, skipping nodes with an empty org). -/
def decisionByOrg (nodes : List DecisionNode) :
    List (String × List (Option ℤ × Option ℤ)) :=
  nodes.foldl
    (fun acc node =>
      if node.org = "" then acc
      else setA acc node.org (((getA acc node.org).getD []) ++ [(node.start, node.stop)]))
    []

/-- `_decision_node_overlap_score(nodes_a, nodes_b, today)`: for each shared
org, the best pair score over all pairs of date ranges, summed over orgs. -/
def decisionNodeOverlapScore (na nb : List DecisionNode) (today : ℤ) : ℤ :=
  let byA := decisionByOrg na
  let byB := decisionByOrg nb
  (keysA byA).foldl
    (fun score org =>
      match getA byB org with
      | none => score
      | some rangesB =>
        let rangesA := (getA byA org).getD []
        let best := rangesA.foldl
          (fun b ra =>
            rangesB.foldl
              (fun b2 rb => max b2 (pairDecisionScore ra.1 ra.2 rb.1 rb.2 today)) b)
          0
        score + best)
    0

/-- Floor square root (the value of `int(n**0.5)` for the small non-negative
integers the scorer produces), written so the kernel can evaluate it. -/
def isqrt (n : ℕ) : ℕ :=
  ((List.range (n + 1)).filter (fun k => k * k ≤ n)).length - 1

/-- `_diminishing_returns(score)`: `int(score**0.5) * 4` (floor square root)
for a positive score. -/
def diminishingReturns (score : ℤ) : ℤ :=
  if score ≤ 0 then 0 else (isqrt score.toNat : ℤ) * 4

/-- `_score_to_distance(score, min_distance, max_closeness_steps)`. -/
def scoreToDistance (score min_distance max_closeness_steps : ℤ) : ℤ :=
  let span := MAX_DISTANCE - min_distance
  let steps := Int.fdiv score SCORE_DIVISOR
  let steps := clipInt steps 0 (min span max_closeness_steps)
  let distance := MAX_DISTANCE - steps
  clipInt distance min_distance MAX_DISTANCE

/-- The ids declared by a person's family-link records
(`{link.person_id for link in family_links if link.person_id}`; Python
truthiness drops both `None` and the empty string). -/
def familyIds (p : PersonNode) : List String :=
  (p.family_links.filterMap (fun l => l.person_id)).filter (fun s => s ≠ "")

/-- The explicit/score accumulation at the top of `edge_distance_value`,
returning `(score, explicit_link)`. -/
def pairScore (np op_ : PersonNode) (today : ℤ) : ℤ × Bool :=
  -- explicit declared ties (dominant)
  let score : ℤ := 0
  let explicit_link := false
  let (score, explicit_link) :=
    if op_.id ∈ np.close_connections then (score + 12, true) else (score, explicit_link)
  let (score, explicit_link) :=
    if np.id ∈ op_.close_connections then (score + 10, true) else (score, explicit_link)
  -- explicit family-link ties
  let (score, explicit_link) :=
    if op_.id ∈ familyIds np ∨ np.id ∈ familyIds op_ then (score + 12, true)
    else (score, explicit_link)
  -- same family name is weaker evidence than an explicit family-link
  let family_points : ℤ := if np.family ≠ "" ∧ np.family = op_.family then 4 else 0
  let score := score + min CAP_FAMILY family_points
  -- inferred evidence by category (all capped)
  let score := score + min CAP_SCHOOLS (setOverlapPoints 3 np.schools op_.schools)
  let score := score + min CAP_EMPLOYERS (setOverlapPoints 4 np.employers op_.employers)
  let score := score + min CAP_ECOSYSTEMS (setOverlapPoints 2 np.ecosystems op_.ecosystems)
  let score := score +
    min CAP_PLATFORMS (setOverlapPoints 1 (keysA np.platforms) (keysA op_.platforms))
  let score := if np.location ≠ "" ∧ np.location = op_.location
               then score + CAP_LOCATION else score
  let score := score +
    min CAP_DECISION (decisionNodeOverlapScore np.decision_nodes op_.decision_nodes today)
  let score := score + min CAP_SOCIETIES (societyScore np.societies op_.societies)
  let score := score + tierAssortativity np.tier op_.tier
  (score, explicit_link)

/-- `edge_distance_value(new_person, other_person, today)`: `none` is the
"no relationship" outcome, otherwise `(distance, is_explicit)`. -/
def edge_distance_value (np op_ : PersonNode) (today : ℤ) : Option (ℤ × Bool) :=
  let (score, explicit_link) := pairScore np op_ today
  if explicit_link = false ∧ score < RELEVANCE_THRESHOLD then none
  else if explicit_link then
    let explicit_distance :=
      min EXPLICIT_DISTANCE
        (scoreToDistance score MIN_DISTANCE (MAX_DISTANCE - MIN_DISTANCE))
    some (explicit_distance, true)
  else
    let shaped_score := diminishingReturns score
    some (scoreToDistance shaped_score MIN_INFERRED_DISTANCE MAX_CLOSENESS_STEPS, false)

/-- The ordered candidate list built by `auto_connect_new_person`:
`(other_id, distance, is_explicit)` triples in people-encounter order. -/
def autoCandidates (np : PersonNode) (g : SocGraph) (today : ℤ) :
    List (String × ℤ × Bool) :=
  g.people.foldr
    (fun kv acc =>
      let other := kv.2
      if other.id = np.id then acc
      else
        match edge_distance_value np other today with
        | none => acc
        | some (distance, is_explicit) => (other.id, distance, is_explicit) :: acc)
    []

/-- Stable insertion for `sort(key=lambda edge: edge[1])`: the new element
goes after strictly-closer entries and before the first entry of equal or
larger distance, so earlier elements keep their position among ties. -/
def insertByDist (x : String × ℤ) : List (String × ℤ) → List (String × ℤ)
  | [] => [x]
  | y :: ys => if y.2 < x.2 then y :: insertByDist x ys else x :: y :: ys

/-- `inferred_edges.sort(key=lambda edge: edge[1])` — CPython's sort is
stable; this right-fold insertion sort has exactly that semantics. -/
def sortByDist (l : List (String × ℤ)) : List (String × ℤ) :=
  l.foldr insertByDist []

/-- `auto_connect_new_person(new_person, graph, top_k, today)`.  The result
dict is modelled as an insertion-ordered association list. -/
def auto_connect_new_person (np : PersonNode) (g : SocGraph)
    (top_k : Option ℤ) (today : ℤ) : Except GraphError (List (String × ℤ)) :=
  match top_k with
  | some k =>
    if k < 0 then .error .invalidArgument else
    let candidates := autoCandidates np g today
    if candidates = [] then .ok []
    else
      let explicit_edges := (candidates.filter (fun c => c.2.2 = true)).map
        (fun c => (c.1, c.2.1))
      let inferred_edges := (candidates.filter (fun c => c.2.2 = false)).map
        (fun c => (c.1, c.2.1))
      -- `inferred_edges.sort(key=distance)` — CPython's sort is stable
      let inferred_sorted := sortByDist inferred_edges
      let room := (k - explicit_edges.length).toNat
      .ok (explicit_edges ++ inferred_sorted.take room)
  | none =>
    let candidates := autoCandidates np g today
    if candidates = [] then .ok []
    else .ok (candidates.map (fun c => (c.1, c.2.1)))

/-- Modelled from the spec: `SocGraph.clear_incident_edges`, which
`upsert_person_with_auto_edges` calls but which is absent from `src/`:
"first clears all of that person's incident edges (both directions) so stale
ties do not linger" — every edge with `pid` as source or target is removed
together with its contexts, and the cached maximum is marked stale (edge
removals can invalidate it). -/
def SocGraph.clear_incident_edges (g : SocGraph) (pid : String) : SocGraph :=
  let outgoing := (getA g.adjacency pid).getD []
  let ctx1 := outgoing.foldl (fun c kv => eraseA c (pid, kv.1)) g.edge_contexts
  let adj1 := setA g.adjacency pid []
  let ctx2 := adj1.foldl
    (fun c row => if containsA row.2 pid then eraseA c (row.1, pid) else c) ctx1
  let adj2 := adj1.map (fun row => (row.1, eraseA row.2 pid))
  { g with adjacency := adj2, edge_contexts := ctx2, max_weight_stale := true }

/-- The body of the `for other_id, distance in distances.items()` loop:
`remove_connection(person.id, other_id, symmetric=True)` then
`add_connection(person.id, other_id, float(distance), symmetric=True)`; a
raised error aborts the remaining iterations with the state as mutated so
far. -/
def upsertStep (pid : String) (acc : SocGraph × Option GraphError)
    (od : String × ℤ) : SocGraph × Option GraphError :=
  match acc with
  | (gacc, some e) => (gacc, some e)
  | (gacc, none) =>
    match gacc.remove_connection pid od.1 true with
    | (gr, some e) => (gr, some e)
    | (gr, none) => gr.add_connection pid od.1 (.fin (od.2 : ℚ)) [] true

/-- `upsert_person_with_auto_edges(graph, person, overwrite, top_k, today)`,
threading the graph state. -/
def upsert_person_with_auto_edges (g : SocGraph) (p : PersonNode)
    (overwrite : Bool) (top_k : Option ℤ) (today : ℤ) :
    SocGraph × Except GraphError (List (String × ℤ)) :=
  let existed := containsA g.people p.id
  match g.add_person p overwrite with
  | (g', some e) => (g', .error e)
  | (g1, none) =>
    let g2 := if existed then g1.clear_incident_edges p.id else g1
    match auto_connect_new_person p g2 top_k today with
    | .error e => (g2, .error e)
    | .ok distances =>
      match distances.foldl (upsertStep p.id) (g2, none) with
      | (gf, none) => (gf, .ok distances)
      | (gf, some e) => (gf, .error e)

/-! ## Path solver (`pathfinding.py`)

Edge costs live in `WithTop ℚ`: `⊤` models the float `inf` that marks an
impassable edge, and addition on `WithTop ℚ` matches float addition with
`inf`.  The `heapq` frontier is modelled as a multiset (a list) from which
each iteration removes a least element under the lexicographic order Python
uses on `(cost, node, trail)` tuples; which of several *equal* tuples a binary
heap yields first is unobservable, so the multiset view is faithful. -/

/-- Extended costs (`⊤` = `inf`). -/
abbrev Qinf := WithTop ℚ

/-- `CostStrategy`. -/
inductive CostStrategy where
  | dynamic
  | inverted
  | fixed
deriving DecidableEq

/-- `CostComputer` (its constructor reads `max(graph.max_weight(), 1.0)`). -/
structure CostComputer where
  strategy : CostStrategy
  fixed_high : ℚ
  max_weight : ℚ
deriving DecidableEq

/-- `CostComputer(graph, strategy, fixed_high)`. -/
def computerOf (g : SocGraph) (strategy : CostStrategy) (fixed_high : ℚ) :
    CostComputer :=
  { strategy, fixed_high, max_weight := max (g.max_weight) 1 }

/-- `CostComputer.edge_cost(weight)`. -/
def CostComputer.edge_cost (c : CostComputer) (w : ℚ) : Qinf :=
  if w ≤ 0 then ⊤
  else match c.strategy with
    | .inverted => ((1 / w : ℚ) : Qinf)
    | .fixed =>
      let normalised := w / c.max_weight * c.fixed_high
      let clamped := min c.fixed_high (max 1 normalised)
      (((c.fixed_high - clamped) + 1 : ℚ) : Qinf)
    | .dynamic =>
      let effective_max := max c.max_weight w
      (((effective_max - w) + 1 : ℚ) : Qinf)

/-- The metadata dict attached to a `PathNode` snapshot.  The source reads
the person's school set as `person.school`; the spec's person record has a
single set of school names, modelled by `PersonNode.schools`. -/
structure PathNodeMetadata where
  school : List String
  employers : List String
  societies : List String
  location : String
  grad_year : Option ℤ
  platforms : List (String × String)
deriving DecidableEq

/-- `PathNode`. -/
structure PathNode where
  id : String
  name : String
  degree : ℕ
  status_score : Option ℚ
  metadata : PathNodeMetadata
deriving DecidableEq

/-- `PathEdge`. -/
structure PathEdge where
  source : String
  target : String
  weight : ℚ
  cost : Qinf
  contexts : List (String × ℚ)
deriving DecidableEq

/-- `PathResult`. -/
structure PathResult where
  node_ids : List String
  nodes : List PathNode
  edges : List PathEdge
  total_cost : Qinf
  total_strength : ℚ
deriving DecidableEq

/-- The per-node snapshot taken by `_build_path_result`. -/
def mkPathNode (g : SocGraph) (nid : String) (person : PersonNode) : PathNode :=
  { id := nid
    name := person.name
    degree := g.degree nid
    status_score := person.status_score
    metadata :=
      { school := person.schools
        employers := person.employers
        societies := keysA person.societies
        location := person.location
        grad_year := person.grad_year
        platforms := person.platforms } }

/-- The consecutive pairs walked by `_build_path_result`'s edge loop. -/
def pathPairs : List String → List (String × String)
  | a :: b :: rest => (a, b) :: pathPairs (b :: rest)
  | _ => []

/-- `_build_path_result(graph, nodes, computer)`.  A missing edge raises
(`CorruptPath`); `get_person` on a missing node raises (`UnknownPerson`). -/
def build_path_result (g : SocGraph) (nodes : List String) (c : CostComputer) :
    Except GraphError PathResult := do
  let edges ← (pathPairs nodes).mapM (fun st =>
    match g.get_edge_weight st.1 st.2 with
    | none => .error GraphError.corruptPath
    | some w => .ok
        { source := st.1
          target := st.2
          weight := w
          cost := c.edge_cost w
          contexts := g.edge_contexts_of st.1 st.2 })
  let payload ← nodes.mapM (fun nid =>
    match getA g.people nid with
    | none => .error GraphError.unknownPerson
    | some person => .ok (mkPathNode g nid person))
  .ok
    { node_ids := nodes
      nodes := payload
      edges := edges
      total_cost := (edges.map (fun e => e.cost)).sum
      total_strength := (edges.map (fun e => e.weight)).sum }

/-- A frontier entry: the `(accumulated cost, node, trail)` tuple. -/
abbrev QItem := Qinf × String × List String

/-- Python's `<` on strings: lexicographic comparison by code point. -/
def charsLt : List Char → List Char → Bool
  | _, [] => false
  | [], _ :: _ => true
  | a :: as_, b :: bs =>
    if a.toNat < b.toNat then true
    else if b.toNat < a.toNat then false
    else charsLt as_ bs

/-- `a < b` for Python strings. -/
def strLt (a b : String) : Bool := charsLt a.data b.data

/-- Python's lexicographic `≤` on lists of strings. -/
def trailLE : List String → List String → Bool
  | [], _ => true
  | _ :: _, [] => false
  | a :: as_, b :: bs =>
    if strLt a b then true else if strLt b a then false else trailLE as_ bs

/-- Python's lexicographic `≤` on `(cost, node, trail)` tuples. -/
def itemLE (x y : QItem) : Bool :=
  if x.1 < y.1 then true
  else if y.1 < x.1 then false
  else if strLt x.2.1 y.2.1 then true
  else if strLt y.2.1 x.2.1 then false
  else trailLE x.2.2 y.2.2

/-- `heapq.heappop`: remove a least element (the first such occurrence). -/
def popMin : List QItem → Option (QItem × List QItem)
  | [] => none
  | x :: xs =>
    match popMin xs with
    | none => some (x, [])
    | some (m, rest) => if itemLE x m then some (x, xs) else some (m, x :: rest)

/-- The outcome of a `dijkstra_shortest_path` call.  `fuelOut` is a model
artifact marking insufficient fuel; the chosen fuel is proved sufficient. -/
inductive DijkstraOut where
  | fuelOut
  | failure (e : GraphError)
  | result (r : Option PathResult)
deriving DecidableEq

/-- The `while queue:` loop of `dijkstra_shortest_path`. -/
def dijkstraLoop (g : SocGraph) (goal : String) (c : CostComputer) :
    ℕ → List QItem → List (String × Qinf) → DijkstraOut
  | fuel, queue, best =>
    match popMin queue with
    | none => .result none
    | some (item, rest) =>
      match fuel with
      | 0 => .fuelOut
      | fuel + 1 =>
        let cost := item.1
        let node := item.2.1
        let trail := item.2.2
        let skip := match getA best node with
          | some b => decide (b ≤ cost)
          | none => false
        if skip then dijkstraLoop g goal c fuel rest best
        else
          let best' := setA best node cost
          let new_trail := trail ++ [node]
          if node = goal then
            match build_path_result g new_trail c with
            | .ok r => .result (some r)
            | .error e => .failure e
          else
            let row := (getA g.adjacency node).getD []
            let pushes := row.filterMap (fun nw =>
              let ec := c.edge_cost nw.2
              if ec = ⊤ then none else some ((cost + ec, nw.1, new_trail) : QItem))
            dijkstraLoop g goal c fuel (rest ++ pushes) best'

/-- The out-degree used for the fuel bound. -/
def SocGraph.degreeOf (g : SocGraph) (n : String) : ℕ :=
  ((getA g.adjacency n).getD []).length

/-- Every node that can ever enter the frontier: the start plus all
adjacency targets. -/
def allNodes (g : SocGraph) (start : String) : List String :=
  (start :: g.adjacency.flatMap (fun row => keysA row.2)).dedup

/-- Fuel sufficient for the loop to run to completion (proved below). -/
def fuelBound (g : SocGraph) (start : String) : ℕ :=
  1 + ((allNodes g start).map (fun n => g.degreeOf n + 1)).sum

/-- `dijkstra_shortest_path(graph, start, goal, strategy, fixed_high)` with
explicit fuel. -/
def dijkstraFuel (g : SocGraph) (start goal : String) (strategy : CostStrategy)
    (fixed_high : ℚ) (fuel : ℕ) : DijkstraOut :=
  if (containsA g.people start) = false then .failure .unknownPerson
  else if (containsA g.people goal) = false then .failure .unknownPerson
  else
    dijkstraLoop g goal (computerOf g strategy fixed_high) fuel
      [((0 : Qinf), start, ([] : List String))] []

/-- `dijkstra_shortest_path` at its default strategy (`DYNAMIC`) and
`fixed_high` (`100.0`), with the canonical sufficient fuel. -/
def dijkstra_shortest_path (g : SocGraph) (start goal : String) : DijkstraOut :=
  dijkstraFuel g start goal .dynamic 100 (fuelBound g start)

/-! ## Association-list lemmas -/

section AListLemmas

variable {K V : Type} [DecidableEq K]

theorem getA_setA_self (l : List (K × V)) (k : K) (v : V) :
    getA (setA l k v) k = some v := by
  induction l with
  | nil => simp [setA, getA]
  | cons kv rest ih =>
    by_cases h : kv.1 = k
    · simp [setA, h, getA]
    · simp [setA, h, getA, ih]

theorem getA_setA_ne (l : List (K × V)) (k k' : K) (v : V) (h : k' ≠ k) :
    getA (setA l k v) k' = getA l k' := by
  induction l with
  | nil => simp [setA, getA, Ne.symm h]
  | cons kv rest ih =>
    by_cases hk : kv.1 = k
    · simp [setA, hk, getA, Ne.symm h]
    · simp [setA, hk, getA, ih]

theorem getA_eraseA_self (l : List (K × V)) (k : K) :
    getA (eraseA l k) k = none := by
  induction l with
  | nil => simp [eraseA, getA]
  | cons kv rest ih =>
    by_cases h : kv.1 = k
    · simp [eraseA, h, ih]
    · simp [eraseA, h, getA, ih]

theorem getA_eraseA_ne (l : List (K × V)) (k k' : K) (h : k' ≠ k) :
    getA (eraseA l k) k' = getA l k' := by
  induction l with
  | nil => simp [eraseA]
  | cons kv rest ih =>
    by_cases hk : kv.1 = k
    · simp [eraseA, hk, getA, ih, Ne.symm h]
    · simp [eraseA, hk, getA, ih]

theorem setA_of_getA_eq (l : List (K × V)) (k : K) (v : V)
    (h : getA l k = some v) : setA l k v = l := by
  induction l with
  | nil => simp [getA] at h
  | cons kv rest ih =>
    by_cases hk : kv.1 = k
    · rw [getA] at h
      simp only [hk, if_true, Option.some.injEq] at h
      rw [setA]
      simp only [hk, if_true]
      rw [show ((k : K), (v : V)) = kv from Prod.ext hk.symm h.symm]
    · rw [getA] at h
      simp only [hk, if_false] at h
      rw [setA]
      simp [hk, ih h]

theorem setA_of_not_contains (l : List (K × V)) (k : K) (v : V)
    (h : containsA l k = false) : setA l k v = l ++ [(k, v)] := by
  induction l with
  | nil => simp [setA]
  | cons kv rest ih =>
    rw [containsA, getA] at h
    by_cases hk : kv.1 = k
    · simp [hk] at h
    · simp only [hk, if_false] at h
      rw [setA]
      simp [hk, ih h]

theorem containsA_iff_mem_keysA (l : List (K × V)) (k : K) :
    containsA l k = true ↔ k ∈ keysA l := by
  induction l with
  | nil => simp [containsA, getA, keysA]
  | cons kv rest ih =>
    by_cases hk : kv.1 = k
    · simp [containsA, getA, hk, keysA]
    · have hstep : containsA (kv :: rest) k = containsA rest k := by
        simp [containsA, getA, hk]
      rw [hstep, ih]
      simp [keysA, Ne.symm hk]

theorem containsA_false_iff (l : List (K × V)) (k : K) :
    containsA l k = false ↔ k ∉ keysA l := by
  rw [← containsA_iff_mem_keysA]
  constructor
  · intro h hc
    rw [h] at hc
    exact Bool.false_ne_true hc
  · intro h
    exact Bool.eq_false_iff.mpr (fun hc => h hc)

theorem getA_isSome_of_contains (l : List (K × V)) (k : K)
    (h : containsA l k = true) : ∃ v, getA l k = some v := by
  rw [containsA] at h
  exact Option.isSome_iff_exists.mp h

theorem mem_of_getA_eq (l : List (K × V)) (k : K) (v : V)
    (h : getA l k = some v) : (k, v) ∈ l := by
  induction l with
  | nil => simp [getA] at h
  | cons kv rest ih =>
    rw [getA] at h
    by_cases hk : kv.1 = k
    · simp only [hk, if_true, Option.some.injEq] at h
      rw [show ((k : K), (v : V)) = kv from Prod.ext hk.symm h.symm]
      exact List.mem_cons_self _ _
    · simp only [hk, if_false] at h
      exact List.mem_cons_of_mem _ (ih h)

theorem getA_map_val {W : Type} (l : List (K × V)) (f : K × V → W) (k : K) :
    getA (l.map (fun r => (r.1, f r))) k = (getA l k).map (fun v => f (k, v)) := by
  induction l with
  | nil => simp [getA]
  | cons kv rest ih =>
    by_cases hk : kv.1 = k
    · subst hk
      simp [getA]
    · simp [getA, hk, ih]

theorem eraseA_sublist (l : List (K × V)) (k : K) : (eraseA l k).Sublist l := by
  induction l with
  | nil => simp [eraseA]
  | cons kv rest ih =>
    by_cases hk : kv.1 = k
    · rw [eraseA]
      simp only [hk, if_true]
      exact ih.cons kv
    · rw [eraseA]
      simp only [hk, if_false]
      exact ih.cons₂ kv

theorem mem_eraseA_iff (l : List (K × V)) (k : K) (r : K × V) :
    r ∈ eraseA l k ↔ r ∈ l ∧ r.1 ≠ k := by
  induction l with
  | nil => simp [eraseA]
  | cons kv rest ih =>
    by_cases hk : kv.1 = k
    · rw [eraseA]
      simp only [hk, if_true, ih, List.mem_cons]
      constructor
      · rintro ⟨h1, h2⟩
        exact ⟨Or.inr h1, h2⟩
      · rintro ⟨h1 | h1, h2⟩
        · exact absurd (h1 ▸ hk) h2
        · exact ⟨h1, h2⟩
    · rw [eraseA]
      simp only [hk, if_false, List.mem_cons, ih]
      constructor
      · rintro (h | ⟨h1, h2⟩)
        · exact ⟨Or.inl h, h ▸ hk⟩
        · exact ⟨Or.inr h1, h2⟩
      · rintro ⟨h1 | h1, h2⟩
        · exact Or.inl h1
        · exact Or.inr ⟨h1, h2⟩

theorem mem_setA_self (l : List (K × V)) (k : K) (v : V) :
    (k, v) ∈ setA l k v := by
  induction l with
  | nil => simp [setA]
  | cons kv rest ih =>
    by_cases hk : kv.1 = k
    · simp [setA, hk]
    · rw [setA]
      simp only [hk, if_false]
      exact List.mem_cons_of_mem _ ih

theorem mem_setA_of_ne (l : List (K × V)) (k : K) (v : V) (r : K × V)
    (hr : r ∈ l) (hne : r.1 ≠ k) : r ∈ setA l k v := by
  induction l with
  | nil => simp at hr
  | cons kv rest ih =>
    rcases List.mem_cons.mp hr with h | h
    · subst h
      rw [setA]
      simp only [hne, if_false]
      exact List.mem_cons_self _ _
    · by_cases hk : kv.1 = k
      · rw [setA]
        simp only [hk, if_true]
        exact List.mem_cons_of_mem _ h
      · rw [setA]
        simp only [hk, if_false]
        exact List.mem_cons_of_mem _ (ih h)

theorem mem_setA_elim (l : List (K × V)) (k : K) (v : V) (r : K × V)
    (hr : r ∈ setA l k v) : r = (k, v) ∨ r ∈ l := by
  induction l with
  | nil => simpa [setA] using hr
  | cons kv rest ih =>
    by_cases hk : kv.1 = k
    · rw [setA] at hr
      simp only [hk, if_true, List.mem_cons] at hr
      rcases hr with h | h
      · exact Or.inl h
      · exact Or.inr (List.mem_cons_of_mem _ h)
    · rw [setA] at hr
      simp only [hk, if_false, List.mem_cons] at hr
      rcases hr with h | h
      · exact Or.inr (h ▸ List.mem_cons_self _ _)
      · rcases ih h with h' | h'
        · exact Or.inl h'
        · exact Or.inr (List.mem_cons_of_mem _ h')

theorem keysA_setA_of_contains (l : List (K × V)) (k : K) (v : V)
    (h : containsA l k = true) : keysA (setA l k v) = keysA l := by
  induction l with
  | nil => simp [containsA, getA] at h
  | cons kv rest ih =>
    rw [containsA, getA] at h
    by_cases hk : kv.1 = k
    · rw [setA]
      simp [hk, keysA]
    · simp only [hk, if_false] at h
      rw [setA]
      simp only [hk, if_false]
      rw [keysA, keysA, List.map_cons, List.map_cons]
      rw [← keysA, ← keysA, ih h]

theorem keysA_map_val {W : Type} (l : List (K × V)) (f : K × V → W) :
    keysA (l.map (fun r => (r.1, f r))) = keysA l := by
  induction l with
  | nil => rfl
  | cons kv rest ih => simp [keysA] at ih ⊢

theorem setdA_of_contains (l : List (K × V)) (k : K) (v : V)
    (h : containsA l k = true) : setdA l k v = l := by
  rw [setdA, h]
  simp

theorem getA_append_left (l l' : List (K × V)) (k : K)
    (h : containsA l k = true) : getA (l ++ l') k = getA l k := by
  induction l with
  | nil => simp [containsA, getA] at h
  | cons kv rest ih =>
    rw [containsA, getA] at h
    by_cases hk : kv.1 = k
    · simp [getA, hk]
    · simp only [hk, if_false] at h
      simp [getA, hk, ih h]

theorem getA_append_right (l l' : List (K × V)) (k : K)
    (h : containsA l k = false) : getA (l ++ l') k = getA l' k := by
  induction l with
  | nil => simp
  | cons kv rest ih =>
    rw [containsA, getA] at h
    by_cases hk : kv.1 = k
    · simp [hk] at h
    · simp only [hk, if_false] at h
      simp [getA, hk, ih h]

theorem getA_eq_none_of_not_contains (l : List (K × V)) (k : K)
    (h : containsA l k = false) : getA l k = none := by
  rw [containsA] at h
  exact Option.not_isSome_iff_eq_none.mp (by simp [h])

theorem getA_setdA_getD (l : List (K × V)) (k a : K) (v0 : V) :
    (getA (setdA l k v0) a).getD v0 = (getA l a).getD v0 := by
  by_cases hc : containsA l k = true
  · rw [setdA_of_contains _ _ _ hc]
  · rw [setdA, if_neg hc]
    by_cases ha : containsA l a = true
    · rw [getA_append_left _ _ _ ha]
    · have ha' : containsA l a = false := Bool.eq_false_iff.mpr ha
      rw [getA_append_right _ _ _ ha', getA_eq_none_of_not_contains _ _ ha']
      by_cases hka : k = a <;> simp [getA, hka]

end AListLemmas

/-! ## Claim C10: `addPerson` with overwrite replaces the record, edges intact -/

/-- C10: for every graph and person `p` whose id already exists,
`addPerson(p, overwrite=true)` succeeds, replaces the stored person record,
and leaves the adjacency, every edge weight in both directions, and every
edge context exactly as before the call. -/
theorem claimC10 (g : SocGraph) (p : PersonNode)
    (h : containsA g.people p.id = true) :
    (g.add_person p true).2 = none ∧
    (g.add_person p true).1.edge_contexts = g.edge_contexts ∧
    (∀ a b, (g.add_person p true).1.get_edge_weight a b = g.get_edge_weight a b) ∧
    (∀ a b, (g.add_person p true).1.edge_contexts_of a b = g.edge_contexts_of a b) ∧
    getA (g.add_person p true).1.people p.id = some p ∧
    (∀ q, q ≠ p.id → getA (g.add_person p true).1.people q = getA g.people q) := by
  rw [SocGraph.add_person, if_neg (by simp)]
  refine ⟨rfl, rfl, ?_, ?_, ?_, ?_⟩
  · intro a b
    rw [SocGraph.get_edge_weight, SocGraph.get_edge_weight]
    show getA ((getA (setdA g.adjacency p.id []) a).getD []) b
      = getA ((getA g.adjacency a).getD []) b
    rw [getA_setdA_getD]
  · intro a b
    rfl
  · exact getA_setA_self _ _ _
  · intro q hq
    exact getA_setA_ne _ _ _ _ hq

/-- A concrete two-person graph with a symmetric edge `a↔b` of weight 3. -/
def gW10 : SocGraph :=
  let g := SocGraph.empty
  let g := (g.add_person { id := "a" } false).1
  let g := (g.add_person { id := "b" } false).1
  (g.add_connection "a" "b" (.fin 3) [] true).1

/-- C10 witness: a concrete graph where the id `a` exists, an edge `a↔b`
is present, and the overwrite leaves it untouched. -/
theorem claimC10_witness :
    (containsA gW10.people "a" = true) ∧
    (gW10.add_person { id := "a", name := "renamed" } true).2 = none ∧
    (gW10.add_person { id := "a", name := "renamed" } true).1.get_edge_weight "a" "b"
      = gW10.get_edge_weight "a" "b" ∧
    getA (gW10.add_person { id := "a", name := "renamed" } true).1.people "a"
      = some { id := "a", name := "renamed" } := by
  have h := claimC10 gW10 { id := "a", name := "renamed" } (by decide)
  exact ⟨by decide, h.1, h.2.2.1 "a" "b", h.2.2.2.2.1⟩

/-! ## Claim C9: `addConnection` validation errors mutate nothing -/

/-- C9: `addConnection` fails with `SelfLoop` when the ids are equal, with
`InvalidWeight` when the weight delta (or, for distinct ids with a finite
delta, any context delta) is non-finite, and with `UnknownPerson` when,
all deltas being finite, either endpoint is absent — and in every failure
case the returned state is exactly the input graph (no partial mutation,
in particular a symmetric call never applies one direction and fails the
other). -/
theorem claimC9 (g : SocGraph) (a b : String) (delta : PyFloat)
    (ctxs : List (String × PyFloat)) (symmetric : Bool) :
    (a = b →
      g.add_connection a b delta ctxs symmetric = (g, some .selfLoop)) ∧
    (a ≠ b → delta.isfinite = false →
      g.add_connection a b delta ctxs symmetric = (g, some .invalidWeight)) ∧
    (a ≠ b → delta.isfinite = true → (∃ c ∈ ctxs, c.2.isfinite = false) →
      g.add_connection a b delta ctxs symmetric = (g, some .invalidWeight)) ∧
    (a ≠ b → delta.isfinite = true → (∀ c ∈ ctxs, c.2.isfinite = true) →
      (containsA g.people a = false ∨ containsA g.people b = false) →
      g.add_connection a b delta ctxs symmetric = (g, some .unknownPerson)) := by
  refine ⟨?_, ?_, ?_, ?_⟩
  · intro hab
    rw [SocGraph.add_connection, if_pos hab]
  · intro hab hfin
    rw [SocGraph.add_connection, if_neg hab, if_pos hfin]
  · intro hab hfin hctx
    rw [SocGraph.add_connection, if_neg hab,
      if_neg (by rw [hfin]; exact (by decide : (true : Bool) ≠ false))]
    rw [if_pos]
    rcases hctx with ⟨c, hc, hcfin⟩
    exact List.any_eq_true.mpr ⟨c, hc, by simp [hcfin]⟩
  · intro hab hfin hctx habs
    rw [SocGraph.add_connection, if_neg hab,
      if_neg (by rw [hfin]; exact (by decide : (true : Bool) ≠ false)), if_neg]
    · rcases habs with hA | hB
      · rw [if_pos hA]
      · by_cases hA : containsA g.people a = false
        · rw [if_pos hA]
        · rw [if_neg hA, if_pos hB]
    · intro hany
      rcases List.any_eq_true.mp hany with ⟨c, hc, hcbad⟩
      simp only [decide_eq_true_eq] at hcbad
      rw [hctx c hc] at hcbad
      exact (by decide : (true : Bool) ≠ false) hcbad

/-! ## Effect lemmas for `_increment_edge` and `add_connection` -/

/-- After `_increment_edge(s, t, δ)`, the stored weight of `(s, t)` is the
prior weight plus `δ` when that sum is positive, and the edge is gone when
the sum is `≤ 0`. -/
theorem incrementEdge_self (g : SocGraph) (s t : String) (delta : ℚ)
    (ctxs : List (String × ℚ)) :
    (g.incrementEdge s t delta ctxs).get_edge_weight s t =
      (if (g.get_edge_weight s t).getD 0 + delta ≤ 0 then none
       else some ((g.get_edge_weight s t).getD 0 + delta)) := by
  have hrw : g.get_edge_weight s t = getA ((getA g.adjacency s).getD []) t := rfl
  rw [SocGraph.incrementEdge, hrw]
  by_cases hw : (getA ((getA g.adjacency s).getD []) t).getD 0 + delta ≤ 0
  · rw [if_pos hw, if_pos hw]
    show getA ((getA (setA g.adjacency s
      (eraseA ((getA g.adjacency s).getD []) t)) s).getD []) t = none
    rw [getA_setA_self]
    exact getA_eraseA_self _ _
  · rw [if_neg hw, if_neg hw]
    show getA ((getA (setA g.adjacency s
      (setA ((getA g.adjacency s).getD []) t
        ((getA ((getA g.adjacency s).getD []) t).getD 0 + delta))) s).getD []) t
      = some ((getA ((getA g.adjacency s).getD []) t).getD 0 + delta)
    rw [getA_setA_self]
    exact getA_setA_self _ _ _

/-- `_increment_edge(s, t, δ)` changes no direction other than `(s, t)`. -/
theorem incrementEdge_other (g : SocGraph) (s t : String) (delta : ℚ)
    (ctxs : List (String × ℚ)) (x y : String) (hxy : ¬(x = s ∧ y = t)) :
    (g.incrementEdge s t delta ctxs).get_edge_weight x y =
      g.get_edge_weight x y := by
  rw [SocGraph.incrementEdge]
  by_cases hx : x = s
  · subst hx
    have hy : y ≠ t := fun hy => hxy ⟨rfl, hy⟩
    by_cases hw : (getA ((getA g.adjacency x).getD []) t).getD 0 + delta ≤ 0
    · rw [if_pos hw]
      show getA ((getA (setA g.adjacency x
        (eraseA ((getA g.adjacency x).getD []) t)) x).getD []) y
        = g.get_edge_weight x y
      rw [getA_setA_self]
      exact getA_eraseA_ne _ _ _ hy
    · rw [if_neg hw]
      show getA ((getA (setA g.adjacency x
        (setA ((getA g.adjacency x).getD []) t
          ((getA ((getA g.adjacency x).getD []) t).getD 0 + delta))) x).getD []) y
        = g.get_edge_weight x y
      rw [getA_setA_self]
      exact getA_setA_ne _ _ _ _ hy
  · by_cases hw : (getA ((getA g.adjacency s).getD []) t).getD 0 + delta ≤ 0
    · rw [if_pos hw]
      show getA ((getA (setA g.adjacency s _) x).getD []) y = g.get_edge_weight x y
      rw [getA_setA_ne _ _ _ _ hx]
      rfl
    · rw [if_neg hw]
      show getA ((getA (setA g.adjacency s _) x).getD []) y = g.get_edge_weight x y
      rw [getA_setA_ne _ _ _ _ hx]
      rfl

/-- `add_connection` under passing validation: the two `_increment_edge`
calls, and no error. -/
theorem add_connection_ok (g : SocGraph) (a b : String) (delta : PyFloat)
    (ctxs : List (String × PyFloat)) (symmetric : Bool)
    (hab : a ≠ b) (hfin : delta.isfinite = true)
    (hctx : ∀ c ∈ ctxs, c.2.isfinite = true)
    (ha : containsA g.people a = true) (hb : containsA g.people b = true) :
    g.add_connection a b delta ctxs symmetric =
      (let ctxQ := ctxs.map (fun c => (c.1, c.2.toRat))
       let g1 := g.incrementEdge a b delta.toRat ctxQ
       (if symmetric then g1.incrementEdge b a delta.toRat ctxQ else g1),
       none) := by
  rw [SocGraph.add_connection, if_neg hab,
    if_neg (by rw [hfin]; exact (by decide : (true : Bool) ≠ false)),
    if_neg, if_neg (by rw [ha]; exact (by decide : (true : Bool) ≠ false)),
    if_neg (by rw [hb]; exact (by decide : (true : Bool) ≠ false))]
  intro hany
  rcases List.any_eq_true.mp hany with ⟨c, hc, hcbad⟩
  simp only [decide_eq_true_eq] at hcbad
  rw [hctx c hc] at hcbad
  exact (by decide : (true : Bool) ≠ false) hcbad

/-! ## Claim C5: symmetric `addConnection` updates two independent
accumulators -/

/-- C5 (amended): after a successful symmetric `addConnection(a, b, δ)`,
*each* direction independently equals its own prior stored weight plus `δ`
when that sum is positive, and is absent when the sum is `≤ 0`; the two
directions agree whenever their priors agreed (in particular when both were
absent), but not in general. -/
theorem claimC5 (g : SocGraph) (a b : String) (delta : ℚ)
    (ctxs : List (String × PyFloat))
    (hab : a ≠ b) (hctx : ∀ c ∈ ctxs, c.2.isfinite = true)
    (ha : containsA g.people a = true) (hb : containsA g.people b = true) :
    (g.add_connection a b (.fin delta) ctxs true).2 = none ∧
    (g.add_connection a b (.fin delta) ctxs true).1.get_edge_weight a b =
      (if (g.get_edge_weight a b).getD 0 + delta ≤ 0 then none
       else some ((g.get_edge_weight a b).getD 0 + delta)) ∧
    (g.add_connection a b (.fin delta) ctxs true).1.get_edge_weight b a =
      (if (g.get_edge_weight b a).getD 0 + delta ≤ 0 then none
       else some ((g.get_edge_weight b a).getD 0 + delta)) ∧
    (g.get_edge_weight a b = g.get_edge_weight b a →
      (g.add_connection a b (.fin delta) ctxs true).1.get_edge_weight a b =
      (g.add_connection a b (.fin delta) ctxs true).1.get_edge_weight b a) := by
  have hAB :
      ((g.incrementEdge a b delta (ctxs.map (fun c => (c.1, c.2.toRat)))).incrementEdge
        b a delta (ctxs.map (fun c => (c.1, c.2.toRat)))).get_edge_weight a b =
      (if (g.get_edge_weight a b).getD 0 + delta ≤ 0 then none
       else some ((g.get_edge_weight a b).getD 0 + delta)) := by
    rw [incrementEdge_other _ b a delta _ a b (fun hh => hab hh.1)]
    exact incrementEdge_self g a b delta _
  have hBA :
      ((g.incrementEdge a b delta (ctxs.map (fun c => (c.1, c.2.toRat)))).incrementEdge
        b a delta (ctxs.map (fun c => (c.1, c.2.toRat)))).get_edge_weight b a =
      (if (g.get_edge_weight b a).getD 0 + delta ≤ 0 then none
       else some ((g.get_edge_weight b a).getD 0 + delta)) := by
    rw [incrementEdge_self]
    rw [incrementEdge_other g a b delta _ b a (fun hh => hab hh.1.symm)]
  rw [add_connection_ok g a b (.fin delta) ctxs true hab rfl hctx ha hb]
  simp only [PyFloat.toRat_fin, ite_true]
  refine ⟨by trivial, ?_, ?_, ?_⟩
  · exact hAB
  · exact hBA
  · intro hprior
    rw [hAB, hBA, hprior]

/-- A graph with persons `a`, `b` and an asymmetric edge `a→b` of weight 5
(inserted with `symmetric=false`). -/
def gC5 : SocGraph :=
  let g := SocGraph.empty
  let g := (g.add_person { id := "a" } false).1
  let g := (g.add_person { id := "b" } false).1
  (g.add_connection "a" "b" (.fin 5) [] false).1

/-- C5 counterexample: with asymmetric priors (5 and absent), a symmetric
`addConnection(a, b, 3)` leaves `edgeWeight(a,b) = 8 ≠ 3 = edgeWeight(b,a)`,
refuting the claimed unconditional equality of the two directions. -/
theorem claimC5_counterexample :
    (gC5.add_connection "a" "b" (.fin 3) [] true).2 = none ∧
    (gC5.add_connection "a" "b" (.fin 3) [] true).1.get_edge_weight "a" "b"
      = some 8 ∧
    (gC5.add_connection "a" "b" (.fin 3) [] true).1.get_edge_weight "b" "a"
      = some 3 ∧
    (8 : ℚ) ≠ 3 := by
  refine ⟨by decide, by decide, by decide, by decide⟩

/-- A graph with persons `a`, `b` and no edges. -/
def gW5 : SocGraph :=
  let g := SocGraph.empty
  let g := (g.add_person { id := "a" } false).1
  (g.add_person { id := "b" } false).1

/-- C5 witness: on equal (absent) priors the amended theorem yields equal
symmetric weights at a concrete input. -/
theorem claimC5_witness :
    ((gW5.add_connection "a" "b" (.fin 3) [] true).2 = none ∧
      (gW5.add_connection "a" "b" (.fin 3) [] true).1.get_edge_weight "a" "b"
        = some 3 ∧
      (gW5.add_connection "a" "b" (.fin 3) [] true).1.get_edge_weight "b" "a"
        = some 3) := by
  have h := claimC5 gW5 "a" "b" 3 [] (by decide) (by intro c hc; cases hc)
    (by decide) (by decide)
  refine ⟨h.1, ?_, ?_⟩
  · rw [h.2.1]
    decide
  · rw [h.2.2.1]
    decide

/-- C9 witness: each failure mode at a concrete input, returning the input
state unchanged. -/
theorem claimC9_witness :
    (SocGraph.empty.add_connection "x" "x" (.fin 1) [] true
      = (SocGraph.empty, some .selfLoop)) ∧
    (SocGraph.empty.add_connection "x" "y" .nan [] true
      = (SocGraph.empty, some .invalidWeight)) ∧
    (SocGraph.empty.add_connection "x" "y" (.fin 1) [("school", .inf)] true
      = (SocGraph.empty, some .invalidWeight)) ∧
    (SocGraph.empty.add_connection "x" "y" (.fin 1) [("school", .fin 1)] true
      = (SocGraph.empty, some .unknownPerson)) := by
  refine ⟨(claimC9 SocGraph.empty "x" "x" (.fin 1) [] true).1 rfl,
    (claimC9 SocGraph.empty "x" "y" .nan [] true).2.1 (by decide) rfl,
    (claimC9 SocGraph.empty "x" "y" (.fin 1) [("school", .inf)] true).2.2.1
      (by decide) rfl ⟨("school", .inf), by decide, rfl⟩,
    (claimC9 SocGraph.empty "x" "y" (.fin 1) [("school", .fin 1)] true).2.2.2
      (by decide) rfl (by decide) (Or.inl (by decide))⟩

/-! ## Claim C6: explicit and inferred distance ranges, relevance gate -/

/-- The explicit-evidence conditions of `edge_distance_value`: either id in
the other's close/explicit relationship set, or a family-link record naming
the other. -/
def explicitEvidence (np op_ : PersonNode) : Prop :=
  op_.id ∈ np.close_connections ∨ np.id ∈ op_.close_connections ∨
    op_.id ∈ familyIds np ∨ np.id ∈ familyIds op_

instance (np op_ : PersonNode) : Decidable (explicitEvidence np op_) := by
  unfold explicitEvidence
  infer_instance

/-- The `explicit_link` flag computed by `edge_distance_value` is exactly the
presence of explicit evidence. -/
theorem pairScore_snd_iff (np op_ : PersonNode) (today : ℤ) :
    (pairScore np op_ today).2 = true ↔ explicitEvidence np op_ := by
  rw [pairScore, explicitEvidence]
  by_cases h1 : op_.id ∈ np.close_connections <;>
    by_cases h2 : np.id ∈ op_.close_connections <;>
      by_cases h3 : op_.id ∈ familyIds np ∨ np.id ∈ familyIds op_ <;>
        simp [h1, h2, h3]

theorem clipInt_lower (v low high : ℤ) (h : low ≤ high) :
    low ≤ clipInt v low high := by
  rw [clipInt]
  split_ifs with h1 h2 <;> omega

theorem clipInt_upper (v low high : ℤ) (h : low ≤ high) :
    clipInt v low high ≤ high := by
  rw [clipInt]
  split_ifs with h1 h2 <;> omega

theorem scoreToDistance_lower (score mind steps : ℤ) (h : mind ≤ MAX_DISTANCE) :
    mind ≤ scoreToDistance score mind steps := by
  rw [scoreToDistance]
  exact clipInt_lower _ _ _ h

theorem scoreToDistance_upper (score mind steps : ℤ) (h : mind ≤ MAX_DISTANCE) :
    scoreToDistance score mind steps ≤ MAX_DISTANCE := by
  rw [scoreToDistance]
  exact clipInt_upper _ _ _ h

/-- Unfolding of `edge_distance_value` given the pair's score and flag. -/
theorem edge_distance_value_eq (np op_ : PersonNode) (today s : ℤ) (f : Bool)
    (h : pairScore np op_ today = (s, f)) :
    edge_distance_value np op_ today =
      (if f = false ∧ s < RELEVANCE_THRESHOLD then none
       else if f then
         some (min EXPLICIT_DISTANCE
           (scoreToDistance s MIN_DISTANCE (MAX_DISTANCE - MIN_DISTANCE)), true)
       else
         some (scoreToDistance (diminishingReturns s) MIN_INFERRED_DISTANCE
           MAX_CLOSENESS_STEPS, false)) := by
  rw [edge_distance_value, h]

/-- C6: whenever any explicit evidence is present, `edge_distance_value`
returns a distance in `[1, 2]` with `is_explicit = true`; a non-explicit pair
scoring at least the relevance threshold (5) gets a distance in `[2, 12]`
with `is_explicit = false`; a non-explicit pair scoring below the threshold
gets "no relationship" (`none`). -/
theorem claimC6 (np op_ : PersonNode) (today : ℤ) :
    (explicitEvidence np op_ →
      ∃ d, edge_distance_value np op_ today = some (d, true) ∧ 1 ≤ d ∧ d ≤ 2) ∧
    (¬ explicitEvidence np op_ →
      RELEVANCE_THRESHOLD ≤ (pairScore np op_ today).1 →
      ∃ d, edge_distance_value np op_ today = some (d, false) ∧ 2 ≤ d ∧ d ≤ 12) ∧
    (¬ explicitEvidence np op_ →
      (pairScore np op_ today).1 < RELEVANCE_THRESHOLD →
      edge_distance_value np op_ today = none) := by
  have hiff := pairScore_snd_iff np op_ today
  rcases hps : pairScore np op_ today with ⟨score, flag⟩
  have hiff2 : flag = true ↔ explicitEvidence np op_ := by rw [hps] at hiff; exact hiff
  have hval := edge_distance_value_eq np op_ today score flag hps
  refine ⟨?_, ?_, ?_⟩
  · intro hev
    have hflag : flag = true := hiff2.mpr hev
    subst hflag
    rw [hval, if_neg (by simp), if_pos rfl]
    refine ⟨_, rfl, ?_, ?_⟩
    · exact le_min (by decide)
        (scoreToDistance_lower score MIN_DISTANCE (MAX_DISTANCE - MIN_DISTANCE)
          (by decide))
    · exact le_trans (min_le_left _ _) (by decide)
  · intro hev hsc
    have hsc2 : RELEVANCE_THRESHOLD ≤ score := hsc
    have hflag : flag = false := by
      cases hfl : flag
      · rfl
      · exact absurd (hiff2.mp hfl) hev
    subst hflag
    rw [hval, if_neg (fun hh => by rw [RELEVANCE_THRESHOLD] at hsc2; omega),
      if_neg (by decide)]
    refine ⟨_, rfl, ?_, ?_⟩
    · exact scoreToDistance_lower _ MIN_INFERRED_DISTANCE MAX_CLOSENESS_STEPS
        (by decide)
    · exact scoreToDistance_upper _ MIN_INFERRED_DISTANCE MAX_CLOSENESS_STEPS
        (by decide)
  · intro hev hsc
    have hsc2 : score < RELEVANCE_THRESHOLD := hsc
    have hflag : flag = false := by
      cases hfl : flag
      · rfl
      · exact absurd (hiff2.mp hfl) hev
    subst hflag
    rw [hval, if_pos ⟨rfl, hsc2⟩]

/-- C6 witness: the three regimes at concrete inputs — an explicit pair, an
inferred pair with score `≥ 5`, and a below-threshold pair. -/
theorem claimC6_witness :
    (∃ d, edge_distance_value { id := "alice", close_connections := ["bob"] }
      { id := "bob" } 20000 = some (d, true) ∧ 1 ≤ d ∧ d ≤ 2) ∧
    (∃ d, edge_distance_value { id := "a", employers := ["e1"], location := "nyc" }
      { id := "b", employers := ["e1"], location := "nyc" } 20000
        = some (d, false) ∧ 2 ≤ d ∧ d ≤ 12) ∧
    (edge_distance_value { id := "alice" } { id := "bob" } 20000 = none) := by
  refine ⟨(claimC6 { id := "alice", close_connections := ["bob"] }
      { id := "bob" } 20000).1 (by decide), ?_, ?_⟩
  · exact (claimC6 { id := "a", employers := ["e1"], location := "nyc" }
      { id := "b", employers := ["e1"], location := "nyc" } 20000).2.1
      (by decide) (by decide)
  · exact (claimC6 { id := "alice" } { id := "bob" } 20000).2.2
      (by decide) (by decide)

/-! ## Fold-erase lemmas (for `remove_person` and `clear_incident_edges`) -/

section FoldErase

variable {K V A : Type} [DecidableEq K]

theorem getA_foldl_eraseA_none (xs : List A) (key : A → K)
    (l : List (K × V)) (k : K) (h : getA l k = none) :
    getA (xs.foldl (fun c x => eraseA c (key x)) l) k = none := by
  induction xs generalizing l with
  | nil => exact h
  | cons x rest ih =>
    rw [List.foldl_cons]
    apply ih
    by_cases hk : k = key x
    · subst hk
      exact getA_eraseA_self _ _
    · rw [getA_eraseA_ne _ _ _ hk]
      exact h

theorem getA_foldl_eraseA_of_mem (xs : List A) (key : A → K)
    (l : List (K × V)) (k : K) (h : ∃ x ∈ xs, key x = k) :
    getA (xs.foldl (fun c x => eraseA c (key x)) l) k = none := by
  induction xs generalizing l with
  | nil => simp at h
  | cons x rest ih =>
    rw [List.foldl_cons]
    rcases h with ⟨y, hy, hky⟩
    rcases List.mem_cons.mp hy with rfl | hyrest
    · apply getA_foldl_eraseA_none
      rw [← hky]
      exact getA_eraseA_self _ _
    · exact ih _ ⟨y, hyrest, hky⟩

theorem getA_foldl_eraseA_of_not_mem (xs : List A) (key : A → K)
    (l : List (K × V)) (k : K) (h : ∀ x ∈ xs, key x ≠ k) :
    getA (xs.foldl (fun c x => eraseA c (key x)) l) k = getA l k := by
  induction xs generalizing l with
  | nil => rfl
  | cons x rest ih =>
    rw [List.foldl_cons]
    rw [ih _ (fun y hy => h y (List.mem_cons_of_mem _ hy))]
    exact getA_eraseA_ne _ _ _
      (fun hk => h x (List.mem_cons_self _ _) hk.symm)

theorem getA_foldl_condErase_none (xs : List A) (p : A → Bool) (key : A → K)
    (l : List (K × V)) (k : K) (h : getA l k = none) :
    getA (xs.foldl (fun c x => if p x then eraseA c (key x) else c) l) k
      = none := by
  induction xs generalizing l with
  | nil => exact h
  | cons x rest ih =>
    rw [List.foldl_cons]
    apply ih
    by_cases hp : p x
    · rw [if_pos hp]
      by_cases hk : k = key x
      · subst hk
        exact getA_eraseA_self _ _
      · rw [getA_eraseA_ne _ _ _ hk]
        exact h
    · rw [if_neg hp]
      exact h

theorem getA_foldl_condErase_of_mem (xs : List A) (p : A → Bool) (key : A → K)
    (l : List (K × V)) (k : K) (h : ∃ x ∈ xs, p x = true ∧ key x = k) :
    getA (xs.foldl (fun c x => if p x then eraseA c (key x) else c) l) k
      = none := by
  induction xs generalizing l with
  | nil => simp at h
  | cons x rest ih =>
    rw [List.foldl_cons]
    rcases h with ⟨y, hy, hpy, hky⟩
    rcases List.mem_cons.mp hy with rfl | hyrest
    · apply getA_foldl_condErase_none
      rw [if_pos hpy, ← hky]
      exact getA_eraseA_self _ _
    · exact ih _ ⟨y, hyrest, hpy, hky⟩

theorem getA_foldl_condErase_of_not_mem (xs : List A) (p : A → Bool)
    (key : A → K) (l : List (K × V)) (k : K)
    (h : ∀ x ∈ xs, p x = true → key x ≠ k) :
    getA (xs.foldl (fun c x => if p x then eraseA c (key x) else c) l) k
      = getA l k := by
  induction xs generalizing l with
  | nil => rfl
  | cons x rest ih =>
    rw [List.foldl_cons]
    rw [ih _ (fun y hy => h y (List.mem_cons_of_mem _ hy))]
    by_cases hp : p x
    · rw [if_pos hp]
      exact getA_eraseA_ne _ _ _
        (fun hk => h x (List.mem_cons_self _ _) hp hk.symm)
    · rw [if_neg hp]

end FoldErase

/-! ## Claim C4: `removePerson` cascades -/

/-- C4: `removePerson` on an absent id fails with `UnknownPerson` and changes
nothing; on a present id it succeeds, deletes the person, deletes every edge
in which it is source or target together with those edges' contexts, leaves
all other people's records intact except that the removed id is stripped from
their explicit relationship-list fields (`close_connections` and
`family_links`), and leaves every edge and context between other people
untouched. -/
theorem claimC4 (g : SocGraph) (pid : String) :
    (containsA g.people pid = false →
      g.remove_person pid = (g, some .unknownPerson)) ∧
    (containsA g.people pid = true →
      (g.remove_person pid).2 = none ∧
      getA (g.remove_person pid).1.people pid = none ∧
      (∀ q, q ≠ pid → getA (g.remove_person pid).1.people q
        = (getA g.people q).map (SocGraph.stripPerson pid)) ∧
      (∀ t, (g.remove_person pid).1.get_edge_weight pid t = none) ∧
      (∀ s, (g.remove_person pid).1.get_edge_weight s pid = none) ∧
      (∀ a b, a ≠ pid → b ≠ pid →
        (g.remove_person pid).1.get_edge_weight a b = g.get_edge_weight a b) ∧
      (∀ t, g.get_edge_weight pid t ≠ none →
        getA (g.remove_person pid).1.edge_contexts (pid, t) = none) ∧
      (∀ s, s ≠ pid → g.get_edge_weight s pid ≠ none →
        getA (g.remove_person pid).1.edge_contexts (s, pid) = none) ∧
      (∀ a b, a ≠ pid → b ≠ pid →
        getA (g.remove_person pid).1.edge_contexts (a, b)
          = getA g.edge_contexts (a, b))) := by
  constructor
  · intro habs
    rw [SocGraph.remove_person, SocGraph.ensure_person, if_neg (by rw [habs]; decide)]
  · intro hp
    rw [SocGraph.remove_person, SocGraph.ensure_person, if_pos hp]
    refine ⟨rfl, ?_, ?_, ?_, ?_, ?_, ?_, ?_, ?_⟩
    · show getA ((eraseA g.people pid).map
        (fun kv => (kv.1, SocGraph.stripPerson pid kv.2))) pid = none
      rw [getA_map_val, getA_eraseA_self]
      rfl
    · intro q hq
      show getA ((eraseA g.people pid).map
        (fun kv => (kv.1, SocGraph.stripPerson pid kv.2))) q
        = (getA g.people q).map (SocGraph.stripPerson pid)
      rw [getA_map_val, getA_eraseA_ne _ _ _ hq]
    · intro t
      show getA ((getA ((eraseA g.adjacency pid).map
        (fun row => (row.1, eraseA row.2 pid))) pid).getD []) t = none
      rw [getA_map_val, getA_eraseA_self]
      rfl
    · intro s
      by_cases hs : s = pid
      · subst hs
        show getA ((getA ((eraseA g.adjacency s).map
          (fun row => (row.1, eraseA row.2 s))) s).getD []) s = none
        rw [getA_map_val, getA_eraseA_self]
        rfl
      · show getA ((getA ((eraseA g.adjacency pid).map
          (fun row => (row.1, eraseA row.2 pid))) s).getD []) pid = none
        rw [getA_map_val, getA_eraseA_ne _ _ _ hs]
        cases hrow : getA g.adjacency s with
        | none => rfl
        | some row =>
          show getA (eraseA row pid) pid = none
          exact getA_eraseA_self _ _
    · intro a b ha hb
      show getA ((getA ((eraseA g.adjacency pid).map
        (fun row => (row.1, eraseA row.2 pid))) a).getD []) b
        = g.get_edge_weight a b
      rw [getA_map_val, getA_eraseA_ne _ _ _ ha]
      cases hrow : getA g.adjacency a with
      | none =>
        rw [SocGraph.get_edge_weight, hrow]
        rfl
      | some row =>
        rw [SocGraph.get_edge_weight, hrow]
        show getA (eraseA row pid) b = getA row b
        exact getA_eraseA_ne _ _ _ hb
    · intro t hedge
      apply getA_foldl_condErase_none
      apply getA_foldl_eraseA_of_mem
      rw [SocGraph.get_edge_weight] at hedge
      cases hrow : getA g.adjacency pid with
      | none =>
        rw [hrow] at hedge
        simp [getA] at hedge
      | some row =>
        rw [hrow] at hedge
        have hedge' : getA row t ≠ none := hedge
        cases hw : getA row t with
        | none => exact absurd hw hedge'
        | some w => exact ⟨(t, w), mem_of_getA_eq _ _ _ hw, rfl⟩
    · intro s hs hedge
      apply getA_foldl_condErase_of_mem
      rw [SocGraph.get_edge_weight] at hedge
      cases hrow : getA g.adjacency s with
      | none =>
        rw [hrow] at hedge
        simp [getA] at hedge
      | some row =>
        rw [hrow] at hedge
        have hedge' : getA row pid ≠ none := hedge
        have hcont : containsA row pid = true := by
          rw [containsA]
          cases hw : getA row pid with
          | none => exact absurd hw hedge'
          | some w => rfl
        refine ⟨(s, row), ?_, hcont, rfl⟩
        exact (mem_eraseA_iff _ _ _).mpr ⟨mem_of_getA_eq _ _ _ hrow, hs⟩
    · intro a b ha hb
      rw [getA_foldl_condErase_of_not_mem _ _ _ _ _
        (fun row _ _ hk => hb (show b = pid from (congrArg Prod.snd hk).symm))]
      exact getA_foldl_eraseA_of_not_mem _ _ _ _
        (fun kv _ hk => ha (show a = pid from (congrArg Prod.fst hk).symm))

/-- A three-person graph with symmetric edges `a↔b` (weight 2, with a
context) and `b↔c` (weight 3), where `a` explicitly lists `b`. -/
def linkToB : FamilyLink :=
  { person_id := some "b", relationship := "cousin", alliance_signal := true }

def personA4 : PersonNode :=
  { id := "a"
    close_connections := ["b", "c"]
    family_links := [linkToB] }

def gW4 : SocGraph :=
  let g := SocGraph.empty
  let g := (g.add_person personA4 false).1
  let g := (g.add_person { id := "b" } false).1
  let g := (g.add_person { id := "c" } false).1
  let g := (g.add_connection "a" "b" (.fin 2) [("fam", .fin 1)] true).1
  (g.add_connection "b" "c" (.fin 3) [] true).1

/-- C4 witness: removing `b` from a concrete graph deletes it, its incident
edges and their contexts, and strips it from `a`'s relationship lists; an
absent id fails with `UnknownPerson` and changes nothing. -/
theorem claimC4_witness :
    (gW4.remove_person "zz" = (gW4, some .unknownPerson)) ∧
    (gW4.remove_person "b").2 = none ∧
    getA (gW4.remove_person "b").1.people "b" = none ∧
    (gW4.remove_person "b").1.get_edge_weight "a" "b" = none ∧
    (gW4.remove_person "b").1.get_edge_weight "b" "c" = none ∧
    getA (gW4.remove_person "b").1.edge_contexts ("a", "b") = none ∧
    getA (gW4.remove_person "b").1.people "a"
      = (getA gW4.people "a").map (SocGraph.stripPerson "b") := by
  obtain ⟨he, hpid, hq, hwout, hwin, hwo, hcout, hcin, hco⟩ :=
    (claimC4 gW4 "b").2 (by decide)
  exact ⟨(claimC4 gW4 "zz").1 (by decide), he, hpid, hwin "a", hwout "c",
    hcin "a" (by decide) (by decide), hq "a" (by decide)⟩

/-! ## Claim C7: `autoConnect` with `topK` -/

/-- The explicit candidates, as `(id, distance)` pairs in encounter order. -/
def explicitCands (np : PersonNode) (g : SocGraph) (today : ℤ) :
    List (String × ℤ) :=
  ((autoCandidates np g today).filter (fun c => c.2.2 = true)).map
    (fun c => (c.1, c.2.1))

/-- The inferred candidates, as `(id, distance)` pairs in encounter order. -/
def inferredCands (np : PersonNode) (g : SocGraph) (today : ℤ) :
    List (String × ℤ) :=
  ((autoCandidates np g today).filter (fun c => c.2.2 = false)).map
    (fun c => (c.1, c.2.1))

theorem insertByDist_perm (x : String × ℤ) (l : List (String × ℤ)) :
    List.Perm (insertByDist x l) (x :: l) := by
  induction l with
  | nil => exact List.Perm.refl _
  | cons y ys ih =>
    rw [insertByDist]
    by_cases h : y.2 < x.2
    · rw [if_pos h]
      exact (ih.cons y).trans (List.Perm.swap x y ys)
    · rw [if_neg h]

theorem sortByDist_perm (l : List (String × ℤ)) :
    List.Perm (sortByDist l) l := by
  induction l with
  | nil => exact List.Perm.refl _
  | cons x xs ih =>
    exact (insertByDist_perm x (sortByDist xs)).trans (ih.cons x)

theorem mem_insertByDist (a x : String × ℤ) (l : List (String × ℤ)) :
    a ∈ insertByDist x l ↔ a = x ∨ a ∈ l :=
  by rw [(insertByDist_perm x l).mem_iff, List.mem_cons]

theorem insertByDist_sorted (x : String × ℤ) (l : List (String × ℤ))
    (h : List.Pairwise (fun a b : String × ℤ => a.2 ≤ b.2) l) :
    List.Pairwise (fun a b : String × ℤ => a.2 ≤ b.2) (insertByDist x l) := by
  induction l with
  | nil => simp [insertByDist]
  | cons y ys ih =>
    rw [insertByDist]
    rcases List.pairwise_cons.mp h with ⟨hy, hys⟩
    by_cases hlt : y.2 < x.2
    · rw [if_pos hlt]
      refine List.pairwise_cons.mpr ⟨?_, ih hys⟩
      intro a ha
      rcases (mem_insertByDist a x ys).mp ha with rfl | ha'
      · exact le_of_lt hlt
      · exact hy a ha'
    · rw [if_neg hlt]
      refine List.pairwise_cons.mpr ⟨?_, h⟩
      intro a ha
      rcases List.mem_cons.mp ha with rfl | ha'
      · exact le_of_not_lt hlt
      · exact le_trans (le_of_not_lt hlt) (hy a ha')

theorem sortByDist_sorted (l : List (String × ℤ)) :
    List.Pairwise (fun a b : String × ℤ => a.2 ≤ b.2) (sortByDist l) := by
  induction l with
  | nil => simp [sortByDist]
  | cons x xs ih => exact insertByDist_sorted x (sortByDist xs) ih

theorem filter_insertByDist (x : String × ℤ) (l : List (String × ℤ)) (d : ℤ) :
    (insertByDist x l).filter (fun a => decide (a.2 = d)) =
      if x.2 = d then x :: l.filter (fun a => decide (a.2 = d))
      else l.filter (fun a => decide (a.2 = d)) := by
  induction l with
  | nil =>
    rw [insertByDist]
    by_cases hx : x.2 = d <;> simp [hx]
  | cons y ys ih =>
    rw [insertByDist]
    by_cases hlt : y.2 < x.2
    · rw [if_pos hlt]
      by_cases hx : x.2 = d
      · have hy : ¬(y.2 = d) := by omega
        simp [List.filter_cons, hy, hx, ih]
      · simp [List.filter_cons, hx, ih]
    · rw [if_neg hlt]
      by_cases hx : x.2 = d
      · simp [List.filter_cons, hx]
      · simp [List.filter_cons, hx]

/-- Stability: sorting the inferred candidates preserves the encounter order
of candidates with equal distance. -/
theorem sortByDist_filter_eq (l : List (String × ℤ)) (d : ℤ) :
    (sortByDist l).filter (fun x => decide (x.2 = d)) =
      l.filter (fun x => decide (x.2 = d)) := by
  induction l with
  | nil => rfl
  | cons x xs ih =>
    show (insertByDist x (sortByDist xs)).filter (fun a => decide (a.2 = d))
      = List.filter (fun a => decide (a.2 = d)) (x :: xs)
    rw [filter_insertByDist, List.filter_cons]
    by_cases hx : x.2 = d
    · rw [if_pos hx, ih]
      simp [hx]
    · rw [if_neg hx, ih]
      simp [hx]

/-- C7: `autoConnect` with a negative `topK` fails with `InvalidArgument`;
with `topK = k ≥ 0` it returns all explicit candidates (regardless of `k`)
followed by the first `max(0, k − #explicit)` entries of the inferred
candidates sorted by ascending distance — a sort that is a permutation of
the inferred candidates, is sorted, and keeps equal-distance candidates in
encounter order. -/
theorem claimC7 (np : PersonNode) (g : SocGraph) (k : ℤ) (today : ℤ) :
    (k < 0 →
      auto_connect_new_person np g (some k) today = .error .invalidArgument) ∧
    (0 ≤ k →
      auto_connect_new_person np g (some k) today =
        .ok (explicitCands np g today ++
          (sortByDist (inferredCands np g today)).take
            ((k - (explicitCands np g today).length).toNat)) ∧
      List.Perm (sortByDist (inferredCands np g today))
        (inferredCands np g today) ∧
      List.Pairwise (fun x y : String × ℤ => x.2 ≤ y.2)
        (sortByDist (inferredCands np g today)) ∧
      (∀ d : ℤ,
        (sortByDist (inferredCands np g today)).filter
            (fun x => decide (x.2 = d)) =
          (inferredCands np g today).filter (fun x => decide (x.2 = d)))) := by
  constructor
  · intro hk
    rw [auto_connect_new_person, if_pos hk]
  · intro hk
    refine ⟨?_, sortByDist_perm _, sortByDist_sorted _,
      fun d => sortByDist_filter_eq _ d⟩
    rw [auto_connect_new_person, if_neg (by omega)]
    by_cases hc : autoCandidates np g today = []
    · rw [if_pos hc]
      rw [explicitCands, inferredCands, hc]
      simp [sortByDist]
    · rw [if_neg hc]
      rfl

/-- A graph with one explicit candidate and two inferred candidates of
differing closeness for the person `new`. -/
def pNew : PersonNode :=
  { id := "new"
    employers := ["e1", "e2"]
    location := "nyc"
    close_connections := ["explicit"] }

def gW7 : SocGraph :=
  let g := SocGraph.empty
  let g := (g.add_person pNew false).1
  let g := (g.add_person { id := "explicit" } false).1
  let g := (g.add_person { id := "medium", employers := ["e1"], location := "nyc" } false).1
  (g.add_person { id := "close", employers := ["e1", "e2"], location := "nyc" } false).1

/-- C7 witness: with one explicit and two inferred candidates of differing
closeness and `topK = 2`, the result is the explicit candidate plus only the
single closest inferred one; a negative `topK` fails with `InvalidArgument`. -/
theorem claimC7_witness :
    (auto_connect_new_person pNew gW7 (some (-1)) 20000
      = .error .invalidArgument) ∧
    (auto_connect_new_person pNew gW7 (some 2) 20000
      = .ok [("explicit", 2), ("close", 6)]) ∧
    (inferredCands pNew gW7 20000 = [("medium", 8), ("close", 6)]) := by
  refine ⟨(claimC7 pNew gW7 (-1) 20000).1 (by decide), ?_, by decide⟩
  have h := ((claimC7 pNew gW7 2 20000).2 (by decide)).1
  rw [h]
  exact congrArg Except.ok (by decide)

/-! ## Claim C3: `upsertWithAutoEdges` machinery -/

/-- `_remove_edge(s, t)` removes the `(s, t)` weight. -/
theorem removeEdge_self (g : SocGraph) (s t : String) :
    (g.removeEdge s t).get_edge_weight s t = none := by
  rw [SocGraph.removeEdge]
  by_cases hc : containsA g.adjacency s = true
  · show getA ((getA (if containsA g.adjacency s = true then
      setA g.adjacency s (eraseA ((getA g.adjacency s).getD []) t)
      else g.adjacency) s).getD []) t = none
    rw [if_pos hc, getA_setA_self]
    exact getA_eraseA_self _ _
  · show getA ((getA (if containsA g.adjacency s = true then
      setA g.adjacency s (eraseA ((getA g.adjacency s).getD []) t)
      else g.adjacency) s).getD []) t = none
    rw [if_neg hc,
      getA_eq_none_of_not_contains g.adjacency s (Bool.eq_false_iff.mpr hc)]
    rfl

/-- `_remove_edge(s, t)` changes no other direction. -/
theorem removeEdge_other (g : SocGraph) (s t x y : String)
    (hxy : ¬(x = s ∧ y = t)) :
    (g.removeEdge s t).get_edge_weight x y = g.get_edge_weight x y := by
  rw [SocGraph.removeEdge]
  show getA ((getA (if containsA g.adjacency s = true then
    setA g.adjacency s (eraseA ((getA g.adjacency s).getD []) t)
    else g.adjacency) x).getD []) y = g.get_edge_weight x y
  by_cases hc : containsA g.adjacency s = true
  · rw [if_pos hc]
    by_cases hx : x = s
    · subst hx
      have hy : y ≠ t := fun hy => hxy ⟨rfl, hy⟩
      rw [getA_setA_self]
      show getA (eraseA ((getA g.adjacency x).getD []) t) y
        = g.get_edge_weight x y
      rw [getA_eraseA_ne _ _ _ hy]
      rfl
    · rw [getA_setA_ne _ _ _ _ hx]
      rfl
  · rw [if_neg hc]
    rfl

theorem removeEdge_people (g : SocGraph) (s t : String) :
    (g.removeEdge s t).people = g.people := rfl

theorem incrementEdge_people (g : SocGraph) (s t : String) (delta : ℚ)
    (ctxs : List (String × ℚ)) :
    (g.incrementEdge s t delta ctxs).people = g.people := by
  rw [SocGraph.incrementEdge]
  by_cases hw : (getA ((getA g.adjacency s).getD []) t).getD 0 + delta ≤ 0
  · rw [if_pos hw]
  · rw [if_neg hw]

/-- `remove_connection` under passing validation. -/
theorem remove_connection_ok (g : SocGraph) (a b : String) (symmetric : Bool)
    (ha : containsA g.people a = true) (hb : containsA g.people b = true) :
    g.remove_connection a b symmetric =
      ((if symmetric then (g.removeEdge a b).removeEdge b a
        else g.removeEdge a b), none) := by
  rw [SocGraph.remove_connection, SocGraph.ensure_person, if_pos ha,
    SocGraph.ensure_person, if_pos hb]

/-- `clear_incident_edges` leaves no edge incident to `pid` and changes no
other edge, nor the people map. -/
theorem clear_incident_edges_spec (g : SocGraph) (pid : String) :
    (∀ t, (g.clear_incident_edges pid).get_edge_weight pid t = none) ∧
    (∀ s, (g.clear_incident_edges pid).get_edge_weight s pid = none) ∧
    (∀ a b, a ≠ pid → b ≠ pid →
      (g.clear_incident_edges pid).get_edge_weight a b
        = g.get_edge_weight a b) ∧
    (g.clear_incident_edges pid).people = g.people := by
  refine ⟨?_, ?_, ?_, rfl⟩
  · intro t
    show getA ((getA ((setA g.adjacency pid []).map
      (fun row => (row.1, eraseA row.2 pid))) pid).getD []) t = none
    rw [getA_map_val, getA_setA_self]
    rfl
  · intro s
    by_cases hs : s = pid
    · subst hs
      show getA ((getA ((setA g.adjacency s []).map
        (fun row => (row.1, eraseA row.2 s))) s).getD []) s = none
      rw [getA_map_val, getA_setA_self]
      rfl
    · show getA ((getA ((setA g.adjacency pid []).map
        (fun row => (row.1, eraseA row.2 pid))) s).getD []) pid = none
      rw [getA_map_val, getA_setA_ne _ _ _ _ hs]
      cases hrow : getA g.adjacency s with
      | none => rfl
      | some row =>
        show getA (eraseA row pid) pid = none
        exact getA_eraseA_self _ _
  · intro a b ha hb
    show getA ((getA ((setA g.adjacency pid []).map
      (fun row => (row.1, eraseA row.2 pid))) a).getD []) b
      = g.get_edge_weight a b
    rw [getA_map_val, getA_setA_ne _ _ _ _ ha]
    cases hrow : getA g.adjacency a with
    | none =>
      rw [SocGraph.get_edge_weight, hrow]
      rfl
    | some row =>
      rw [SocGraph.get_edge_weight, hrow]
      show getA (eraseA row pid) b = getA row b
      exact getA_eraseA_ne _ _ _ hb

/-- Every distance `edge_distance_value` produces lies in `[1, 12]`. -/
theorem edge_distance_value_range (np op_ : PersonNode) (today : ℤ) (d : ℤ)
    (f : Bool) (h : edge_distance_value np op_ today = some (d, f)) :
    1 ≤ d ∧ d ≤ 12 := by
  rcases hps : pairScore np op_ today with ⟨score, flag⟩
  rw [edge_distance_value_eq np op_ today score flag hps] at h
  by_cases hgate : flag = false ∧ score < RELEVANCE_THRESHOLD
  · rw [if_pos hgate] at h
    cases h
  · rw [if_neg hgate] at h
    by_cases hfl : flag = true
    · rw [if_pos hfl] at h
      injection h with h'
      have hd : d = min EXPLICIT_DISTANCE
          (scoreToDistance score MIN_DISTANCE (MAX_DISTANCE - MIN_DISTANCE)) :=
        (congrArg Prod.fst h').symm
      have h1 := scoreToDistance_lower score MIN_DISTANCE
        (MAX_DISTANCE - MIN_DISTANCE) (by decide)
      have h2 : MIN_DISTANCE = 1 := rfl
      have h3 : EXPLICIT_DISTANCE = 2 := rfl
      rw [hd]
      constructor
      · exact le_min (by decide) (h2 ▸ h1)
      · exact le_trans (min_le_left _ _) (by rw [h3]; decide)
    · rw [if_neg hfl] at h
      injection h with h'
      have hd : d = scoreToDistance (diminishingReturns score)
          MIN_INFERRED_DISTANCE MAX_CLOSENESS_STEPS :=
        (congrArg Prod.fst h').symm
      have h1 := scoreToDistance_lower (diminishingReturns score)
        MIN_INFERRED_DISTANCE MAX_CLOSENESS_STEPS (by decide)
      have h2 := scoreToDistance_upper (diminishingReturns score)
        MIN_INFERRED_DISTANCE MAX_CLOSENESS_STEPS (by decide)
      rw [hd]
      exact ⟨le_trans (by decide) h1, h2⟩

/-- Facts about the candidate list: every candidate is a non-self person
whose id is a people key, with a distance in `[1, 12]`; and the candidate
ids form a sublist of the people keys (hence are distinct when the keys
are). -/
theorem autoCandidates_facts (np : PersonNode) (g : SocGraph) (today : ℤ)
    (hids : ∀ kv ∈ g.people, kv.2.id = kv.1) :
    (∀ c ∈ autoCandidates np g today,
      c.1 ≠ np.id ∧ c.1 ∈ keysA g.people ∧ 1 ≤ c.2.1 ∧ c.2.1 ≤ 12) ∧
    List.Sublist ((autoCandidates np g today).map (fun c => c.1))
      (keysA g.people) := by
  rw [autoCandidates, keysA]
  revert hids
  induction g.people with
  | nil =>
    exact fun hids => ⟨fun c hc => absurd hc (List.not_mem_nil c),
      List.Sublist.refl _⟩
  | cons kv rest ih =>
    intro hids
    have hhd : kv.2.id = kv.1 := hids kv (List.mem_cons_self _ _)
    obtain ⟨ih1, ih2⟩ := ih (fun kv' h => hids kv' (List.mem_cons_of_mem _ h))
    rw [List.foldr_cons, List.map_cons]
    dsimp only
    by_cases hskip : kv.2.id = np.id
    · rw [if_pos hskip]
      refine ⟨?_, ih2.cons kv.1⟩
      intro c hc
      obtain ⟨h1, h2, h3⟩ := ih1 c hc
      exact ⟨h1, List.mem_cons_of_mem _ h2, h3⟩
    · rw [if_neg hskip]
      cases hedv : edge_distance_value np kv.2 today with
      | none =>
        refine ⟨?_, ih2.cons kv.1⟩
        intro c hc
        obtain ⟨h1, h2, h3⟩ := ih1 c hc
        exact ⟨h1, List.mem_cons_of_mem _ h2, h3⟩
      | some de =>
        obtain ⟨d, e⟩ := de
        constructor
        · intro c hc
          rcases List.mem_cons.mp hc with rfl | hc'
          · refine ⟨hskip, ?_, ?_⟩
            · rw [hhd]
              exact List.mem_cons_self _ _
            · exact edge_distance_value_range np kv.2 today d e hedv
          · obtain ⟨h1, h2, h3⟩ := ih1 c hc'
            exact ⟨h1, List.mem_cons_of_mem _ h2, h3⟩
        · rw [List.map_cons]
          show List.Sublist (kv.2.id :: _) (kv.1 :: _)
          rw [hhd]
          exact ih2.cons₂ kv.1

/-- The result list of `auto_connect_new_person` in closed form, for a
non-negative (or absent) `top_k`. -/
theorem auto_connect_eq_none_case (np : PersonNode) (g : SocGraph) (today : ℤ) :
    auto_connect_new_person np g none today =
      .ok ((autoCandidates np g today).map (fun c => (c.1, c.2.1))) := by
  rw [auto_connect_new_person]
  by_cases hc : autoCandidates np g today = []
  · rw [if_pos hc, hc]
    rfl
  · rw [if_neg hc]

theorem auto_connect_eq_some_case (np : PersonNode) (g : SocGraph) (k : ℤ)
    (today : ℤ) (hk : 0 ≤ k) :
    auto_connect_new_person np g (some k) today =
      .ok (((autoCandidates np g today).filter (fun c => c.2.2 = true)).map
            (fun c => (c.1, c.2.1)) ++
        (sortByDist (((autoCandidates np g today).filter
            (fun c => c.2.2 = false)).map (fun c => (c.1, c.2.1)))).take
          ((k - (((autoCandidates np g today).filter (fun c => c.2.2 = true)).map
            (fun c => (c.1, c.2.1))).length).toNat)) := by
  rw [auto_connect_new_person, if_neg (by omega)]
  by_cases hc : autoCandidates np g today = []
  · rw [if_pos hc, hc]
    simp [sortByDist]
  · rw [if_neg hc]

/-- Every applied-distance entry of the `auto_connect` result is a non-self
person key with a positive distance, and the result's keys are distinct. -/
theorem auto_connect_facts (np : PersonNode) (g : SocGraph) (top_k : Option ℤ)
    (today : ℤ) (hk : ∀ k, top_k = some k → 0 ≤ k)
    (hids : ∀ kv ∈ g.people, kv.2.id = kv.1)
    (hkeys : (keysA g.people).Nodup) :
    ∃ ds, auto_connect_new_person np g top_k today = .ok ds ∧
      (∀ od ∈ ds, od.1 ≠ np.id ∧ od.1 ∈ keysA g.people ∧ 1 ≤ od.2) ∧
      (keysA ds).Nodup := by
  obtain ⟨hfacts, hsub⟩ := autoCandidates_facts np g today hids
  have hcnd : ((autoCandidates np g today).map (fun c => c.1)).Nodup :=
    hsub.nodup hkeys
  cases top_k with
  | none =>
    refine ⟨_, auto_connect_eq_none_case np g today, ?_, ?_⟩
    · intro od hod
      obtain ⟨c, hc, rfl⟩ := List.mem_map.mp hod
      obtain ⟨h1, h2, h3, _⟩ := hfacts c hc
      exact ⟨h1, h2, h3⟩
    · show (((autoCandidates np g today).map (fun c => (c.1, c.2.1))).map
        (fun x => x.1)).Nodup
      rw [List.map_map]
      exact hcnd
  | some k =>
    have hk' : 0 ≤ k := hk k rfl
    have hexpl : ∀ od ∈ ((autoCandidates np g today).filter (fun c => c.2.2 = true)).map
        (fun c => (c.1, c.2.1)), ∃ c ∈ (autoCandidates np g today), c.2.2 = true ∧ od = (c.1, c.2.1) := by
      intro od hod
      obtain ⟨c, hc, rfl⟩ := List.mem_map.mp hod
      have hcmem := List.mem_filter.mp hc
      exact ⟨c, hcmem.1, by simpa using hcmem.2, rfl⟩
    have hinf : ∀ od ∈ (sortByDist (((autoCandidates np g today).filter (fun c => c.2.2 = false)).map
        (fun c => (c.1, c.2.1)))).take
          ((k - (((autoCandidates np g today).filter (fun c => c.2.2 = true)).map
            (fun c => (c.1, c.2.1))).length).toNat),
        ∃ c ∈ (autoCandidates np g today), c.2.2 = false ∧ od = (c.1, c.2.1) := by
      intro od hod
      have hod2 := (sortByDist_perm _).mem_iff.mp (List.mem_of_mem_take hod)
      obtain ⟨c, hc, rfl⟩ := List.mem_map.mp hod2
      have hcmem := List.mem_filter.mp hc
      exact ⟨c, hcmem.1, by simpa using hcmem.2, rfl⟩
    refine ⟨_, auto_connect_eq_some_case np g k today hk', ?_, ?_⟩
    · intro od hod
      rcases List.mem_append.mp hod with h | h
      · obtain ⟨c, hc, _, rfl⟩ := hexpl od h
        obtain ⟨h1, h2, h3, _⟩ := hfacts c hc
        exact ⟨h1, h2, h3⟩
      · obtain ⟨c, hc, _, rfl⟩ := hinf od h
        obtain ⟨h1, h2, h3, _⟩ := hfacts c hc
        exact ⟨h1, h2, h3⟩
    · rw [keysA, List.map_append]
      have hA : ((((autoCandidates np g today).filter (fun c => c.2.2 = true)).map
          (fun c => (c.1, c.2.1))).map (fun x => x.1)).Nodup := by
        rw [List.map_map]
        exact (((List.filter_sublist _).map (fun c : String × ℤ × Bool => c.1)).nodup hcnd)
      have hBfull : ((sortByDist (((autoCandidates np g today).filter (fun c => c.2.2 = false)).map
          (fun c => (c.1, c.2.1)))).map (fun x => x.1)).Nodup := by
        apply ((sortByDist_perm _).map (fun x : String × ℤ => x.1)).nodup_iff.mpr
        rw [List.map_map]
        exact (((List.filter_sublist _).map (fun c : String × ℤ × Bool => c.1)).nodup hcnd)
      have hB : (((sortByDist (((autoCandidates np g today).filter (fun c => c.2.2 = false)).map
          (fun c => (c.1, c.2.1)))).take
            ((k - (((autoCandidates np g today).filter (fun c => c.2.2 = true)).map
              (fun c => (c.1, c.2.1))).length).toNat)).map
          (fun x => x.1)).Nodup :=
        ((List.take_sublist _ _).map (fun x : String × ℤ => x.1)).nodup hBfull
      apply List.Nodup.append hA hB
      intro x hxA hxB
      obtain ⟨od1, hod1, rfl⟩ := List.mem_map.mp hxA
      obtain ⟨od2, hod2, heq⟩ := List.mem_map.mp hxB
      obtain ⟨c1, hc1, hf1, rfl⟩ := hexpl od1 hod1
      obtain ⟨c2, hc2, hf2, rfl⟩ := hinf od2 hod2
      have heq1 : c1.1 = c2.1 := by
        simpa using heq.symm
      have : c1 = c2 := List.inj_on_of_nodup_map hcnd hc1 hc2 heq1
      rw [this, hf2] at hf1
      cases hf1

/-- The apply-distances loop: starting from a state whose people include
`pid` and every key of `ds`, it succeeds, sets the symmetric edge `pid↔o` to
exactly the distance for every `(o, d)` in `ds`, and leaves every other edge
(and the people map) untouched. -/
theorem upsertStep_fold_spec (pid : String) :
    ∀ (ds : List (String × ℤ)) (g0 : SocGraph),
    (keysA ds).Nodup →
    (∀ od ∈ ds, od.1 ≠ pid ∧ containsA g0.people od.1 = true ∧ 0 < od.2) →
    containsA g0.people pid = true →
    ∃ gf, ds.foldl (upsertStep pid) (g0, none) = (gf, none) ∧
      gf.people = g0.people ∧
      (∀ o d, getA ds o = some d →
        gf.get_edge_weight pid o = some ((d : ℚ)) ∧
        gf.get_edge_weight o pid = some ((d : ℚ))) ∧
      (∀ o, getA ds o = none →
        gf.get_edge_weight pid o = g0.get_edge_weight pid o ∧
        gf.get_edge_weight o pid = g0.get_edge_weight o pid) ∧
      (∀ a b, a ≠ pid → b ≠ pid →
        gf.get_edge_weight a b = g0.get_edge_weight a b) := by
  intro ds
  induction ds with
  | nil =>
    intro g0 _ _ _
    refine ⟨g0, rfl, rfl, ?_, ?_, ?_⟩
    · intro o d h
      cases h
    · intro o _
      exact ⟨rfl, rfl⟩
    · intro a b _ _
      rfl
  | cons od rest ih =>
    intro g0 hnd hfacts hpid
    obtain ⟨o, d⟩ := od
    obtain ⟨hone, hocont, hdpos⟩ := hfacts (o, d) (List.mem_cons_self _ _)
    have hpo : pid ≠ o := Ne.symm hone
    -- the two removals
    have hrem : g0.remove_connection pid o true
        = ((g0.removeEdge pid o).removeEdge o pid, none) := by
      rw [remove_connection_ok g0 pid o true hpid hocont, if_pos rfl]
    -- the state after the removals
    have hg1people : ((g0.removeEdge pid o).removeEdge o pid).people
        = g0.people := rfl
    -- the two increments
    have hadd : ((g0.removeEdge pid o).removeEdge o pid).add_connection pid o
        (.fin ((d : ℚ))) [] true
        = ((((g0.removeEdge pid o).removeEdge o pid).incrementEdge pid o
            ((d : ℚ)) []).incrementEdge o pid ((d : ℚ)) [], none) := by
      rw [add_connection_ok ((g0.removeEdge pid o).removeEdge o pid)
        pid o (.fin ((d : ℚ))) [] true hpo rfl (fun c hc => by cases hc)
        (by rw [hg1people]; exact hpid) (by rw [hg1people]; exact hocont)]
      simp [PyFloat.toRat_fin]
    have hstep : upsertStep pid (g0, none) (o, d)
        = ((((g0.removeEdge pid o).removeEdge o pid).incrementEdge pid o
            ((d : ℚ)) []).incrementEdge o pid ((d : ℚ)) [], none) := by
      show (match g0.remove_connection pid o true with
        | (gr, some e) => (gr, some e)
        | (gr, none) => gr.add_connection pid o (.fin ((d : ℚ))) [] true)
        = _
      rw [hrem]
      exact hadd
    -- name the state after this iteration
    have hg2people : (((((g0.removeEdge pid o).removeEdge o pid).incrementEdge
        pid o ((d : ℚ)) []).incrementEdge o pid ((d : ℚ)) [])).people
        = g0.people := by
      rw [incrementEdge_people, incrementEdge_people]
      exact hg1people
    have hg2self1 : (((((g0.removeEdge pid o).removeEdge o pid).incrementEdge
        pid o ((d : ℚ)) []).incrementEdge o pid ((d : ℚ)) [])).get_edge_weight
        pid o = some ((d : ℚ)) := by
      rw [incrementEdge_other _ o pid _ _ pid o (fun hh => hpo hh.1)]
      rw [incrementEdge_self]
      rw [removeEdge_other _ o pid pid o (fun hh => hpo hh.1),
        removeEdge_self]
      rw [if_neg (by
        simp only [Option.getD_none, zero_add]
        exact not_le.mpr (by exact_mod_cast hdpos))]
      simp
    have hg2self2 : (((((g0.removeEdge pid o).removeEdge o pid).incrementEdge
        pid o ((d : ℚ)) []).incrementEdge o pid ((d : ℚ)) [])).get_edge_weight
        o pid = some ((d : ℚ)) := by
      rw [incrementEdge_self]
      rw [incrementEdge_other _ pid o _ _ o pid (fun hh => hpo hh.2)]
      rw [removeEdge_self]
      rw [if_neg (by
        simp only [Option.getD_none, zero_add]
        exact not_le.mpr (by exact_mod_cast hdpos))]
      simp
    have hg2other : ∀ x y, ¬(x = pid ∧ y = o) → ¬(x = o ∧ y = pid) →
        (((((g0.removeEdge pid o).removeEdge o pid).incrementEdge
          pid o ((d : ℚ)) []).incrementEdge o pid ((d : ℚ)) [])).get_edge_weight
          x y = g0.get_edge_weight x y := by
      intro x y h1 h2
      rw [incrementEdge_other _ _ _ _ _ _ _ h2, incrementEdge_other _ _ _ _ _ _ _ h1,
        removeEdge_other _ _ _ _ _ h2, removeEdge_other _ _ _ _ _ h1]
    -- apply the induction hypothesis to the remaining entries
    have hndrest : (keysA rest).Nodup := (List.nodup_cons.mp hnd).2
    have honotin : o ∉ keysA rest := by
      have := (List.nodup_cons.mp hnd).1
      simpa [keysA] using this
    obtain ⟨gf, hfold, hpeople, hsome, hnone, hother⟩ :=
      ih (((((g0.removeEdge pid o).removeEdge o pid).incrementEdge
        pid o ((d : ℚ)) []).incrementEdge o pid ((d : ℚ)) []))
        hndrest
        (fun od' hod' => by
          obtain ⟨h1, h2, h3⟩ := hfacts od' (List.mem_cons_of_mem _ hod')
          exact ⟨h1, by rw [hg2people]; exact h2, h3⟩)
        (by rw [hg2people]; exact hpid)
    refine ⟨gf, ?_, ?_, ?_, ?_, ?_⟩
    · rw [List.foldl_cons, hstep, hfold]
    · rw [hpeople, hg2people]
    · intro o' d' hget
      rw [getA] at hget
      by_cases ho' : o = o'
      · subst ho'
        rw [if_pos rfl] at hget
        injection hget with hget
        subst hget
        have hrest : getA rest o = none := by
          cases hg : getA rest o with
          | none => rfl
          | some v =>
            exact absurd ((containsA_iff_mem_keysA rest o).mp
              (by rw [containsA, hg]; rfl)) honotin
        obtain ⟨hn1, hn2⟩ := hnone o hrest
        exact ⟨hn1.trans hg2self1, hn2.trans hg2self2⟩
      · simp only [ho', if_false] at hget
        exact hsome o' d' hget
    · intro o' hget
      rw [getA] at hget
      by_cases ho' : o = o'
      · rw [if_pos ho'] at hget
        cases hget
      · simp only [ho', if_false] at hget
        obtain ⟨hn1, hn2⟩ := hnone o' hget
        have hne' : o' ≠ o := fun hh => ho' hh.symm
        constructor
        · rw [hn1]
          exact hg2other pid o' (fun hh => hne' hh.2) (fun hh => hpo hh.1)
        · rw [hn2]
          exact hg2other o' pid (fun hh => hpo hh.2) (fun hh => hne' hh.1)
    · intro a b ha hb
      rw [hother a b ha hb]
      exact hg2other a b (fun hh => ha hh.1) (fun hh => hb hh.2)

/-- C3: for a person whose id already exists, `upsertWithAutoEdges` with
`overwrite=true` succeeds and returns the applied-distances map `ds`, which
is exactly the `autoConnect` result computed on the graph *after* the person
was replaced and all of its incident edges were cleared; in the final graph
the edges incident to the person are exactly `ds`, symmetric, with weight
equal to the distance (stale ties are gone), and every edge between other
people is untouched. -/
theorem claimC3 (g : SocGraph) (p : PersonNode) (top_k : Option ℤ) (today : ℤ)
    (hex : containsA g.people p.id = true)
    (hk : ∀ k, top_k = some k → 0 ≤ k)
    (hids : ∀ kv ∈ g.people, kv.2.id = kv.1)
    (hkeys : (keysA g.people).Nodup) :
    ∃ ds gf,
      upsert_person_with_auto_edges g p true top_k today = (gf, .ok ds) ∧
      auto_connect_new_person p
        (((g.add_person p true).1).clear_incident_edges p.id) top_k today
        = .ok ds ∧
      (∀ o d, getA ds o = some d →
        gf.get_edge_weight p.id o = some ((d : ℚ)) ∧
        gf.get_edge_weight o p.id = some ((d : ℚ))) ∧
      (∀ o, getA ds o = none →
        gf.get_edge_weight p.id o = none ∧ gf.get_edge_weight o p.id = none) ∧
      (∀ a b, a ≠ p.id → b ≠ p.id →
        gf.get_edge_weight a b = g.get_edge_weight a b) := by
  have hsnd : (g.add_person p true).2 = none := by
    rw [SocGraph.add_person, if_neg (by simp)]
  have hpair : g.add_person p true = ((g.add_person p true).1, none) := by
    conv_lhs => rw [show g.add_person p true
      = ((g.add_person p true).1, (g.add_person p true).2) from rfl]
    rw [hsnd]
  have hg1people : (g.add_person p true).1.people = setA g.people p.id p := by
    rw [SocGraph.add_person, if_neg (by simp)]
  obtain ⟨hclr1, hclr2, hclr3, hclr4⟩ :=
    clear_incident_edges_spec (g.add_person p true).1 p.id
  have hg2people :
      ((g.add_person p true).1.clear_incident_edges p.id).people
        = setA g.people p.id p := by
    rw [hclr4, hg1people]
  have hids2 : ∀ kv ∈ ((g.add_person p true).1.clear_incident_edges p.id).people,
      kv.2.id = kv.1 := by
    rw [hg2people]
    intro kv hkv
    rcases mem_setA_elim _ _ _ _ hkv with rfl | hmem
    · rfl
    · exact hids kv hmem
  have hkeys2 :
      (keysA ((g.add_person p true).1.clear_incident_edges p.id).people).Nodup := by
    rw [hg2people, keysA_setA_of_contains _ _ _ hex]
    exact hkeys
  have hpid2 : containsA
      ((g.add_person p true).1.clear_incident_edges p.id).people p.id = true := by
    rw [hg2people, containsA, getA_setA_self]
    rfl
  obtain ⟨ds, hds, hdsfacts, hdsnd⟩ :=
    auto_connect_facts p ((g.add_person p true).1.clear_incident_edges p.id)
      top_k today hk hids2 hkeys2
  obtain ⟨gf, hfold, hpeople, hsome, hnone, hother⟩ :=
    upsertStep_fold_spec p.id ds
      ((g.add_person p true).1.clear_incident_edges p.id) hdsnd
      (fun od hod => by
        obtain ⟨h1, h2, h3⟩ := hdsfacts od hod
        exact ⟨h1, (containsA_iff_mem_keysA _ _).mpr h2, by omega⟩)
      hpid2
  refine ⟨ds, gf, ?_, hds, hsome, ?_, ?_⟩
  · rw [upsert_person_with_auto_edges, hpair]
    show (let g2 := if containsA g.people p.id = true then
        (g.add_person p true).1.clear_incident_edges p.id
        else (g.add_person p true).1
      match auto_connect_new_person p g2 top_k today with
      | .error e => (g2, .error e)
      | .ok distances =>
        match distances.foldl (upsertStep p.id) (g2, none) with
        | (gf, none) => (gf, .ok distances)
        | (gf, some e) => (gf, .error e)) = (gf, Except.ok ds)
    rw [if_pos hex]
    show (match auto_connect_new_person p
        ((g.add_person p true).1.clear_incident_edges p.id) top_k today with
      | .error e => ((g.add_person p true).1.clear_incident_edges p.id, .error e)
      | .ok distances =>
        match distances.foldl (upsertStep p.id)
          ((g.add_person p true).1.clear_incident_edges p.id, none) with
        | (gf, none) => (gf, .ok distances)
        | (gf, some e) => (gf, .error e)) = (gf, Except.ok ds)
    rw [hds]
    show (match ds.foldl (upsertStep p.id)
        ((g.add_person p true).1.clear_incident_edges p.id, none) with
      | (gf, none) => (gf, Except.ok ds)
      | (gf, some e) => (gf, .error e)) = (gf, Except.ok ds)
    rw [hfold]
  · intro o hget
    obtain ⟨hn1, hn2⟩ := hnone o hget
    exact ⟨hn1.trans (hclr1 o), hn2.trans (hclr2 o)⟩
  · intro a b ha hb
    rw [hother a b ha hb, hclr3 a b ha hb]
    have hg1adj : (g.add_person p true).1.adjacency
        = setdA g.adjacency p.id [] := by
      rw [SocGraph.add_person, if_neg (by simp)]
    show getA ((getA ((g.add_person p true).1.adjacency) a).getD []) b
      = g.get_edge_weight a b
    rw [hg1adj, getA_setdA_getD]
    rfl

instance {E A : Type} [DecidableEq E] [DecidableEq A] :
    DecidableEq (Except E A) := fun a b =>
  match a, b with
  | .error e, .error f =>
    if h : e = f then isTrue (by rw [h]) else
      isFalse (fun hh => h (by cases hh; rfl))
  | .ok x, .ok y =>
    if h : x = y then isTrue (by rw [h]) else
      isFalse (fun hh => h (by cases hh; rfl))
  | .error _, .ok _ => isFalse (fun hh => by cases hh)
  | .ok _, .error _ => isFalse (fun hh => by cases hh)

/-- A two-person graph where `a` already exists with a stale symmetric edge
`a↔b` of weight 9. -/
def gW3 : SocGraph :=
  let g := SocGraph.empty
  let g := (g.add_person { id := "a" } false).1
  let g := (g.add_person { id := "b" } false).1
  (g.add_connection "a" "b" (.fin 9) [] true).1

def pA3 : PersonNode :=
  { id := "a", close_connections := ["b"] }

/-- C3 witness: upserting `a` (now explicitly close to `b`) over its stale
weight-9 tie yields the applied map `[("b", 2)]` and fresh symmetric edges of
weight 2 in both directions. -/
theorem claimC3_witness :
    (∃ ds gf,
      upsert_person_with_auto_edges gW3 pA3 true none 20000 = (gf, .ok ds) ∧
      auto_connect_new_person pA3
        (((gW3.add_person pA3 true).1).clear_incident_edges pA3.id) none 20000
        = .ok ds ∧
      (∀ o d, getA ds o = some d →
        gf.get_edge_weight pA3.id o = some ((d : ℚ)) ∧
        gf.get_edge_weight o pA3.id = some ((d : ℚ))) ∧
      (∀ o, getA ds o = none →
        gf.get_edge_weight pA3.id o = none ∧
        gf.get_edge_weight o pA3.id = none) ∧
      (∀ a b, a ≠ pA3.id → b ≠ pA3.id →
        gf.get_edge_weight a b = gW3.get_edge_weight a b)) ∧
    (upsert_person_with_auto_edges gW3 pA3 true none 20000).2
      = .ok [("b", 2)] ∧
    (upsert_person_with_auto_edges gW3 pA3 true none 20000).1.get_edge_weight
      "a" "b" = some 2 ∧
    (upsert_person_with_auto_edges gW3 pA3 true none 20000).1.get_edge_weight
      "b" "a" = some 2 := by
  refine ⟨claimC3 gW3 pA3 none 20000 (by decide) (fun k h => by cases h)
    (by decide) (by decide), by decide, by decide, by decide⟩

/-! ## Claim C2: the maximum-weight cache is never observably stale -/

/-- A graph-store mutation. -/
inductive Op where
  | addPerson (p : PersonNode) (overwrite : Bool)
  | removePerson (pid : String)
  | addConnection (a b : String) (delta : PyFloat)
      (ctxs : List (String × PyFloat)) (symmetric : Bool)
  | removeConnection (a b : String) (symmetric : Bool)

/-- Apply one operation; a raised error leaves the state as returned (for
these operations, unchanged — validation precedes mutation). -/
def applyOp (g : SocGraph) : Op → SocGraph
  | .addPerson p ow => (g.add_person p ow).1
  | .removePerson pid => (g.remove_person pid).1
  | .addConnection a b d c s => (g.add_connection a b d c s).1
  | .removeConnection a b s => (g.remove_connection a b s).1

/-- Run a sequence of graph-store operations from the empty graph. -/
def runOps (ops : List Op) : SocGraph :=
  ops.foldl applyOp SocGraph.empty

/-- All currently stored edge weights (no filtering). -/
def weightsAll (g : SocGraph) : List ℚ :=
  g.adjacency.flatMap (fun row => row.2.map (fun kv => kv.2))

theorem storedWeights_eq_filter (g : SocGraph) :
    g.storedWeights = (weightsAll g).filter (fun w => decide (0 < w)) := rfl

theorem le_listMax (l : List ℚ) (x : ℚ) (hx : x ∈ l) :
    x ≤ SocGraph.listMax l := by
  induction l with
  | nil => cases hx
  | cons y ys ih =>
    rcases List.mem_cons.mp hx with rfl | hx'
    · exact le_max_left _ _
    · exact le_trans (ih hx') (le_max_right _ _)

theorem listMax_nonneg (l : List ℚ) : 0 ≤ SocGraph.listMax l := by
  induction l with
  | nil => exact le_refl 0
  | cons y ys ih => exact le_trans ih (le_max_right _ _)

theorem listMax_le (l : List ℚ) (b : ℚ) (hb : 0 ≤ b)
    (h : ∀ x ∈ l, x ≤ b) : SocGraph.listMax l ≤ b := by
  induction l with
  | nil => exact hb
  | cons y ys ih =>
    exact max_le (h y (List.mem_cons_self _ _))
      (ih (fun x hx => h x (List.mem_cons_of_mem _ hx)))

theorem listMax_mem (l : List ℚ) (h : SocGraph.listMax l ≠ 0) :
    SocGraph.listMax l ∈ l := by
  induction l with
  | nil => exact absurd rfl h
  | cons y ys ih =>
    show max y (SocGraph.listMax ys) ∈ y :: ys
    rcases max_choice y (SocGraph.listMax ys) with hm | hm
    · rw [hm]
      exact List.mem_cons_self _ _
    · rw [hm]
      refine List.mem_cons_of_mem _ (ih ?_)
      rw [← hm]
      exact h

theorem getA_eq_of_mem_nodup {K V : Type} [DecidableEq K]
    (l : List (K × V)) (k : K) (v : V) (hnd : (keysA l).Nodup)
    (hm : (k, v) ∈ l) : getA l k = some v := by
  induction l with
  | nil => cases hm
  | cons kv rest ih =>
    rcases List.mem_cons.mp hm with rfl | hm'
    · rw [getA, if_pos rfl]
    · have hk : kv.1 ≠ k := by
        intro hk
        have : k ∈ keysA rest := by
          rw [keysA]
          exact List.mem_map.mpr ⟨(k, v), hm', rfl⟩
        rw [keysA, List.map_cons] at hnd
        exact (List.nodup_cons.mp hnd).1 (hk ▸ this)
      rw [getA, if_neg hk]
      exact ih ((List.nodup_cons.mp (by rwa [keysA, List.map_cons] at hnd)).2) hm'

theorem eraseA_of_not_contains {K V : Type} [DecidableEq K]
    (l : List (K × V)) (k : K) (h : containsA l k = false) :
    eraseA l k = l := by
  induction l with
  | nil => rfl
  | cons kv rest ih =>
    rw [containsA, getA] at h
    by_cases hk : kv.1 = k
    · simp [hk] at h
    · simp only [hk, if_false] at h
      rw [eraseA]
      simp only [hk, if_false]
      rw [ih h]

/-- Well-formedness of the adjacency structure: distinct row keys and
distinct target keys in every row (Python dicts guarantee both). -/
def WFadj (g : SocGraph) : Prop :=
  (keysA g.adjacency).Nodup ∧ ∀ r ∈ g.adjacency, (keysA r.2).Nodup

/-- The cache invariant: all stored weights are positive, and when the cache
is not marked stale it is the true maximum. -/
def MaxInv (g : SocGraph) : Prop :=
  WFadj g ∧
  (∀ w ∈ weightsAll g, 0 < w) ∧
  (g.max_weight_stale = false →
    (∀ w ∈ weightsAll g, w ≤ g.max_weight_cache) ∧
    (g.max_weight_cache = 0 ∨ g.max_weight_cache ∈ weightsAll g))

theorem mem_weightsAll_iff (g : SocGraph) (x : ℚ) :
    x ∈ weightsAll g ↔ ∃ r ∈ g.adjacency, ∃ kv ∈ r.2, kv.2 = x := by
  rw [weightsAll, List.mem_flatMap]
  constructor
  · rintro ⟨r, hr, hx⟩
    obtain ⟨kv, hkv, hkx⟩ := List.mem_map.mp hx
    exact ⟨r, hr, kv, hkv, hkx⟩
  · rintro ⟨r, hr, kv, hkv, hkx⟩
    exact ⟨r, hr, List.mem_map.mpr ⟨kv, hkv, hkx⟩⟩

/-- The true maximum is unchanged when the adjacency is unchanged. -/
theorem max_weight_of_inv (g : SocGraph) (hinv : MaxInv g) :
    g.max_weight = SocGraph.listMax (weightsAll g) := by
  obtain ⟨hwf, hpos, hcache⟩ := hinv
  rw [SocGraph.max_weight]
  cases hst : g.max_weight_stale with
  | true =>
    rw [if_pos rfl, storedWeights_eq_filter,
      List.filter_eq_self.mpr (fun w hw => by
        simp only [decide_eq_true_eq]
        exact hpos w hw)]
  | false =>
    rw [if_neg (by decide)]
    obtain ⟨hub, hat⟩ := hcache hst
    apply le_antisymm
    · rcases hat with h0 | hmem
      · rw [h0]
        exact listMax_nonneg _
      · exact le_listMax _ _ hmem
    · apply listMax_le
      · rcases hat with h0 | hmem
        · rw [h0]
        · exact le_of_lt (hpos _ hmem)
      · exact hub

/-- The weights found in the (possibly defaulted) row of `s` are stored
weights, and that row has distinct keys. -/
theorem rowFacts (g : SocGraph) (s : String) (hwf : WFadj g) :
    (∀ kv ∈ (getA g.adjacency s).getD ([] : List (String × ℚ)),
      kv.2 ∈ weightsAll g) ∧
    (keysA ((getA g.adjacency s).getD ([] : List (String × ℚ)))).Nodup := by
  cases hg : getA g.adjacency s with
  | none => exact ⟨fun kv hkv => absurd hkv (List.not_mem_nil kv), List.Pairwise.nil⟩
  | some row0 =>
    have hmem : (s, row0) ∈ g.adjacency := mem_of_getA_eq _ _ _ hg
    constructor
    · intro kv hkv
      exact (mem_weightsAll_iff g kv.2).mpr ⟨(s, row0), hmem, kv, hkv, rfl⟩
    · exact hwf.2 (s, row0) hmem

/-- `_increment_edge` preserves the cache invariant. -/
theorem inv_incrementEdge (g : SocGraph) (s t : String) (delta : ℚ)
    (ctxs : List (String × ℚ)) (hinv : MaxInv g) :
    MaxInv (g.incrementEdge s t delta ctxs) := by
  obtain ⟨⟨hkeys, hrows⟩, hpos, hcache⟩ := hinv
  obtain ⟨hrowmem, hrownd⟩ := rowFacts g s ⟨hkeys, hrows⟩
  have hkeysSet : ∀ v : List (String × ℚ),
      (keysA (setA g.adjacency s v)).Nodup := by
    intro v
    by_cases hc : containsA g.adjacency s = true
    · rw [keysA_setA_of_contains _ _ _ hc]
      exact hkeys
    · rw [setA_of_not_contains _ _ _ (Bool.eq_false_iff.mpr hc), keysA,
        List.map_append]
      refine List.Nodup.append hkeys (by simp) ?_
      intro x hx hx'
      simp only [List.map_cons, List.map_nil, List.mem_singleton] at hx'
      subst hx'
      exact (containsA_false_iff _ _).mp (Bool.eq_false_iff.mpr hc) hx
  have hmemIffG : ∀ x, x ∈ weightsAll g ↔
      ∃ r ∈ g.adjacency, ∃ kv ∈ r.2, kv.2 = x := fun x => mem_weightsAll_iff g x
  by_cases hw : (getA ((getA g.adjacency s).getD []) t).getD 0 + delta ≤ 0
  · have hadj : (g.incrementEdge s t delta ctxs).adjacency
        = setA g.adjacency s (eraseA ((getA g.adjacency s).getD []) t) := by
      rw [SocGraph.incrementEdge, if_pos hw]
    have hstaleEq : (g.incrementEdge s t delta ctxs).max_weight_stale = true := by
      rw [SocGraph.incrementEdge, if_pos hw]
    have hmemIff : ∀ x, x ∈ weightsAll (g.incrementEdge s t delta ctxs) ↔
        ∃ r ∈ setA g.adjacency s (eraseA ((getA g.adjacency s).getD []) t),
          ∃ kv ∈ r.2, kv.2 = x := by
      intro x
      rw [mem_weightsAll_iff, hadj]
    refine ⟨⟨?_, ?_⟩, ?_, ?_⟩
    · rw [hadj]
      exact hkeysSet _
    · rw [hadj]
      intro r hr
      rcases mem_setA_elim _ _ _ _ hr with rfl | hr'
      · exact ((eraseA_sublist _ _).map _).nodup hrownd
      · exact hrows r hr'
    · intro x hx
      obtain ⟨r, hr, kv, hkv, rfl⟩ := (hmemIff _).mp hx
      rcases mem_setA_elim _ _ _ _ hr with rfl | hr'
      · exact hpos _ (hrowmem kv ((mem_eraseA_iff _ _ _).mp hkv).1)
      · exact hpos _ ((mem_weightsAll_iff g kv.2).mpr ⟨r, hr', kv, hkv, rfl⟩)
    · intro h
      rw [hstaleEq] at h
      cases h
  · have hwpos : 0 < (getA ((getA g.adjacency s).getD []) t).getD 0 + delta :=
      lt_of_not_le hw
    have hadj : (g.incrementEdge s t delta ctxs).adjacency
        = setA g.adjacency s (setA ((getA g.adjacency s).getD []) t
          ((getA ((getA g.adjacency s).getD []) t).getD 0 + delta)) := by
      rw [SocGraph.incrementEdge, if_neg hw]
    have hstaleEq : (g.incrementEdge s t delta ctxs).max_weight_stale
        = (if (getA ((getA g.adjacency s).getD []) t).getD 0 + delta
            < (getA ((getA g.adjacency s).getD []) t).getD 0 ∧
            g.max_weight_cache ≤ (getA ((getA g.adjacency s).getD []) t).getD 0
          then true else g.max_weight_stale) := by
      rw [SocGraph.incrementEdge, if_neg hw]
    have hcacheEq : (g.incrementEdge s t delta ctxs).max_weight_cache
        = (if g.max_weight_cache
            < (getA ((getA g.adjacency s).getD []) t).getD 0 + delta
          then (getA ((getA g.adjacency s).getD []) t).getD 0 + delta
          else g.max_weight_cache) := by
      rw [SocGraph.incrementEdge, if_neg hw]
    have hmemIff : ∀ x, x ∈ weightsAll (g.incrementEdge s t delta ctxs) ↔
        ∃ r ∈ setA g.adjacency s (setA ((getA g.adjacency s).getD []) t
          ((getA ((getA g.adjacency s).getD []) t).getD 0 + delta)),
          ∃ kv ∈ r.2, kv.2 = x := by
      intro x
      rw [mem_weightsAll_iff, hadj]
    have hnewmem : (getA ((getA g.adjacency s).getD []) t).getD 0 + delta
        ∈ weightsAll (g.incrementEdge s t delta ctxs) :=
      (hmemIff _).mpr
        ⟨(s, setA ((getA g.adjacency s).getD []) t
          ((getA ((getA g.adjacency s).getD []) t).getD 0 + delta)),
        mem_setA_self _ _ _,
        (t, (getA ((getA g.adjacency s).getD []) t).getD 0 + delta),
        mem_setA_self _ _ _, rfl⟩
    have hmemElim : ∀ x, x ∈ weightsAll (g.incrementEdge s t delta ctxs) →
        x = (getA ((getA g.adjacency s).getD []) t).getD 0 + delta ∨
        x ∈ weightsAll g := by
      intro x hx
      obtain ⟨r, hr, kv, hkv, rfl⟩ := (hmemIff _).mp hx
      rcases mem_setA_elim _ _ _ _ hr with rfl | hr'
      · rcases mem_setA_elim _ _ _ _ hkv with rfl | hkv'
        · exact Or.inl rfl
        · exact Or.inr (hrowmem kv hkv')
      · exact Or.inr ((mem_weightsAll_iff g kv.2).mpr ⟨r, hr', kv, hkv, rfl⟩)
    refine ⟨⟨?_, ?_⟩, ?_, ?_⟩
    · rw [hadj]
      exact hkeysSet _
    · rw [hadj]
      intro r hr
      rcases mem_setA_elim _ _ _ _ hr with rfl | hr'
      · by_cases hct : containsA ((getA g.adjacency s).getD []) t = true
        · rw [keysA_setA_of_contains _ _ _ hct]
          exact hrownd
        · rw [setA_of_not_contains _ _ _ (Bool.eq_false_iff.mpr hct), keysA,
            List.map_append]
          refine List.Nodup.append hrownd (by simp) ?_
          intro x hx hx'
          simp only [List.map_cons, List.map_nil, List.mem_singleton] at hx'
          subst hx'
          exact (containsA_false_iff _ _).mp (Bool.eq_false_iff.mpr hct) hx
      · exact hrows r hr'
    · intro x hx
      rcases hmemElim x hx with rfl | hx'
      · exact hwpos
      · exact hpos _ hx'
    · rw [hstaleEq, hcacheEq]
      intro hstale
      have hc1 : ¬((getA ((getA g.adjacency s).getD []) t).getD 0 + delta
          < (getA ((getA g.adjacency s).getD []) t).getD 0 ∧
          g.max_weight_cache ≤ (getA ((getA g.adjacency s).getD []) t).getD 0) := by
        intro h
        rw [if_pos h] at hstale
        cases hstale
      have hst : g.max_weight_stale = false := by rwa [if_neg hc1] at hstale
      obtain ⟨hub, hat⟩ := hcache hst
      by_cases hcw : g.max_weight_cache
          < (getA ((getA g.adjacency s).getD []) t).getD 0 + delta
      · rw [if_pos hcw]
        constructor
        · intro x hx
          rcases hmemElim x hx with rfl | hx'
          · exact le_refl _
          · exact le_trans (hub x hx') (le_of_lt hcw)
        · exact Or.inr hnewmem
      · have hwle : (getA ((getA g.adjacency s).getD []) t).getD 0 + delta
            ≤ g.max_weight_cache := le_of_not_lt hcw
        rw [if_neg hcw]
        constructor
        · intro x hx
          rcases hmemElim x hx with rfl | hx'
          · exact hwle
          · exact hub x hx'
        · rcases hat with h0 | hmem
          · exact absurd (lt_of_lt_of_le hwpos (h0 ▸ hwle)) (lt_irrefl 0)
          · obtain ⟨r, hr, kv, hkv, hkx⟩ := (mem_weightsAll_iff _ _).mp hmem
            right
            by_cases hrs : r.1 = s
            · have hrget : getA g.adjacency s = some r.2 := by
                rw [← hrs]
                exact getA_eq_of_mem_nodup _ _ _ hkeys (by
                  rw [show (r.1, r.2) = r from rfl]
                  exact hr)
              have hroweq : (getA g.adjacency s).getD ([] : List (String × ℚ)) = r.2 := by
                rw [hrget]
                rfl
              by_cases hkt : kv.1 = t
              · have hcur : getA ((getA g.adjacency s).getD []) t
                    = some g.max_weight_cache := by
                  rw [hroweq, ← hkt]
                  exact getA_eq_of_mem_nodup _ _ _ (hrows r hr) (by
                    rw [← hkx, show (kv.1, kv.2) = kv from rfl]
                    exact hkv)
                have hcureq : (getA ((getA g.adjacency s).getD []) t).getD 0
                    = g.max_weight_cache := by rw [hcur]; rfl
                have hweq : (getA ((getA g.adjacency s).getD []) t).getD 0 + delta
                    = g.max_weight_cache := by
                  rcases lt_trichotomy ((getA ((getA g.adjacency s).getD []) t).getD 0
                    + delta) g.max_weight_cache with hlt | heq | hgt
                  · exact absurd ⟨by rw [hcureq] at hlt ⊢; exact hlt,
                      le_of_eq hcureq.symm⟩ hc1
                  · exact heq
                  · exact absurd hgt hcw
                rw [← hweq]
                exact hnewmem
              · refine (hmemIff _).mpr
                  ⟨(s, setA ((getA g.adjacency s).getD []) t
                    ((getA ((getA g.adjacency s).getD []) t).getD 0 + delta)),
                  mem_setA_self _ _ _, kv, ?_, hkx⟩
                apply mem_setA_of_ne _ _ _ _ _ hkt
                rw [hroweq]
                exact hkv
            · refine (hmemIff _).mpr ⟨r, ?_, kv, hkv, hkx⟩
              exact mem_setA_of_ne _ _ _ _ hr hrs

/-- `keysA` stays duplicate-free under `setA`. -/
theorem keysA_setA_nodup {K V : Type} [DecidableEq K]
    (l : List (K × V)) (k : K) (v : V) (h : (keysA l).Nodup) :
    (keysA (setA l k v)).Nodup := by
  by_cases hc : containsA l k = true
  · rw [keysA_setA_of_contains _ _ _ hc]
    exact h
  · rw [setA_of_not_contains _ _ _ (Bool.eq_false_iff.mpr hc), keysA,
      List.map_append]
    refine List.Nodup.append h (by simp) ?_
    intro x hx hx'
    simp only [List.map_cons, List.map_nil, List.mem_singleton] at hx'
    subst hx'
    exact (containsA_false_iff _ _).mp (Bool.eq_false_iff.mpr hc) hx

/-- `MaxInv` only reads the adjacency and the two cache fields. -/
theorem MaxInv_congr (g gq : SocGraph)
    (hadj : gq.adjacency = g.adjacency)
    (hcac : gq.max_weight_cache = g.max_weight_cache)
    (hsta : gq.max_weight_stale = g.max_weight_stale)
    (hinv : MaxInv g) : MaxInv gq := by
  obtain ⟨⟨h1, h2⟩, h3, h4⟩ := hinv
  have hw : weightsAll gq = weightsAll g := by
    rw [weightsAll, weightsAll, hadj]
  refine ⟨⟨?_, ?_⟩, ?_, ?_⟩
  · rw [hadj]
    exact h1
  · rw [hadj]
    exact h2
  · rw [hw]
    exact h3
  · rw [hsta, hcac, hw]
    exact h4

/-- The empty graph satisfies the cache invariant. -/
theorem inv_empty : MaxInv SocGraph.empty := by
  refine ⟨⟨List.Pairwise.nil, ?_⟩, ?_, ?_⟩
  · intro r hr
    exact absurd hr (List.not_mem_nil r)
  · intro x hx
    exact absurd hx (List.not_mem_nil x)
  · intro _
    exact ⟨fun x hx => absurd hx (List.not_mem_nil x), Or.inl rfl⟩

/-- `add_person` preserves the cache invariant. -/
theorem inv_add_person (g : SocGraph) (p : PersonNode) (ow : Bool)
    (hinv : MaxInv g) : MaxInv (g.add_person p ow).1 := by
  obtain ⟨⟨hkeys, hrows⟩, hpos, hcache⟩ := hinv
  by_cases hc : containsA g.people p.id = true ∧ ow = false
  · have heq : (g.add_person p ow).1 = g := by
      rw [SocGraph.add_person, if_pos hc]
    rw [heq]
    exact ⟨⟨hkeys, hrows⟩, hpos, hcache⟩
  · have hadj : (g.add_person p ow).1.adjacency = setdA g.adjacency p.id [] := by
      rw [SocGraph.add_person, if_neg hc]
    have hcacheE : (g.add_person p ow).1.max_weight_cache
        = g.max_weight_cache := by
      rw [SocGraph.add_person, if_neg hc]
    have hstaleE : (g.add_person p ow).1.max_weight_stale
        = g.max_weight_stale := by
      rw [SocGraph.add_person, if_neg hc]
    by_cases hca : containsA g.adjacency p.id = true
    · exact MaxInv_congr g _ (by rw [hadj, setdA_of_contains _ _ _ hca])
        hcacheE hstaleE ⟨⟨hkeys, hrows⟩, hpos, hcache⟩
    · have hadj2 : (g.add_person p ow).1.adjacency
          = g.adjacency ++ [(p.id, ([] : List (String × ℚ)))] := by
        rw [hadj, setdA, if_neg hca]
      have hw : ∀ x : ℚ, x ∈ weightsAll (g.add_person p ow).1 ↔
          x ∈ weightsAll g := by
        intro x
        rw [weightsAll, hadj2, List.flatMap_append, weightsAll]
        rw [show ([((p.id : String), ([] : List (String × ℚ)))].flatMap
          (fun row => row.2.map (fun kv => kv.2))) = [] from rfl,
          List.append_nil]
      refine ⟨⟨?_, ?_⟩, ?_, ?_⟩
      · rw [hadj2, keysA, List.map_append]
        refine List.Nodup.append hkeys (by simp) ?_
        intro x hx hx'
        simp only [List.map_cons, List.map_nil, List.mem_singleton] at hx'
        subst hx'
        exact (containsA_false_iff _ _).mp (Bool.eq_false_iff.mpr hca) hx
      · rw [hadj2]
        intro r hr
        rcases List.mem_append.mp hr with hr' | hr'
        · exact hrows r hr'
        · simp only [List.mem_singleton] at hr'
          subst hr'
          exact List.Pairwise.nil
      · intro x hx
        exact hpos x ((hw x).mp hx)
      · rw [hstaleE, hcacheE]
        intro hst
        obtain ⟨hub, hat⟩ := hcache hst
        refine ⟨fun x hx => hub x ((hw x).mp hx), ?_⟩
        rcases hat with h0 | hm
        · exact Or.inl h0
        · exact Or.inr ((hw _).mpr hm)

/-- `remove_person` preserves the cache invariant. -/
theorem inv_remove_person (g : SocGraph) (pid : String)
    (hinv : MaxInv g) : MaxInv (g.remove_person pid).1 := by
  obtain ⟨⟨hkeys, hrows⟩, hpos, hcache⟩ := hinv
  by_cases hc : containsA g.people pid = true
  · have hadj : (g.remove_person pid).1.adjacency
        = (eraseA g.adjacency pid).map
          (fun row => (row.1, eraseA row.2 pid)) := by
      rw [SocGraph.remove_person, SocGraph.ensure_person, if_pos hc]
    have hstaleEq : (g.remove_person pid).1.max_weight_stale = true := by
      rw [SocGraph.remove_person, SocGraph.ensure_person, if_pos hc]
    refine ⟨⟨?_, ?_⟩, ?_, ?_⟩
    · rw [hadj, keysA_map_val]
      exact ((eraseA_sublist _ _).map _).nodup hkeys
    · rw [hadj]
      intro r hr
      obtain ⟨row, hrow, rfl⟩ := List.mem_map.mp hr
      exact ((eraseA_sublist _ _).map _).nodup
        (hrows row ((eraseA_sublist g.adjacency pid).subset hrow))
    · intro x hx
      obtain ⟨r, hr, kv, hkv, rfl⟩ := (mem_weightsAll_iff _ _).mp hx
      rw [hadj] at hr
      obtain ⟨row, hrow, rfl⟩ := List.mem_map.mp hr
      have hkv' : kv ∈ row.2 := ((mem_eraseA_iff _ _ _).mp hkv).1
      exact hpos _ ((mem_weightsAll_iff g kv.2).mpr
        ⟨row, (eraseA_sublist g.adjacency pid).subset hrow, kv, hkv', rfl⟩)
    · intro h
      rw [hstaleEq] at h
      cases h
  · have heq : (g.remove_person pid).1 = g := by
      rw [SocGraph.remove_person, SocGraph.ensure_person, if_neg hc]
    rw [heq]
    exact ⟨⟨hkeys, hrows⟩, hpos, hcache⟩

/-- `_remove_edge` preserves the cache invariant: dropping a weight at or
above the cached maximum marks the cache stale. -/
theorem inv_removeEdge (g : SocGraph) (s t : String)
    (hinv : MaxInv g) : MaxInv (g.removeEdge s t) := by
  obtain ⟨⟨hkeys, hrows⟩, hpos, hcache⟩ := hinv
  obtain ⟨hrowmem, hrownd⟩ := rowFacts g s ⟨hkeys, hrows⟩
  have hadj : (g.removeEdge s t).adjacency
      = (if containsA g.adjacency s
        then setA g.adjacency s (eraseA ((getA g.adjacency s).getD []) t)
        else g.adjacency) := by
    rw [SocGraph.removeEdge]
  have hstaleEq : (g.removeEdge s t).max_weight_stale
      = (match getA ((getA g.adjacency s).getD []) t with
        | some w => if g.max_weight_cache ≤ w then true else g.max_weight_stale
        | none => g.max_weight_stale) := by
    rw [SocGraph.removeEdge]
  have hcacheE : (g.removeEdge s t).max_weight_cache
      = g.max_weight_cache := by
    rw [SocGraph.removeEdge]
  by_cases hcA : containsA g.adjacency s = true
  · have hadj1 : (g.removeEdge s t).adjacency
        = setA g.adjacency s (eraseA ((getA g.adjacency s).getD []) t) := by
      rw [hadj, if_pos hcA]
    have hmemIff : ∀ x : ℚ, x ∈ weightsAll (g.removeEdge s t) ↔
        ∃ r ∈ setA g.adjacency s (eraseA ((getA g.adjacency s).getD []) t),
          ∃ kv ∈ r.2, kv.2 = x := by
      intro x
      rw [mem_weightsAll_iff, hadj1]
    have hmemElim : ∀ x : ℚ, x ∈ weightsAll (g.removeEdge s t) →
        x ∈ weightsAll g := by
      intro x hx
      obtain ⟨r, hr, kv, hkv, rfl⟩ := (hmemIff _).mp hx
      rcases mem_setA_elim _ _ _ _ hr with rfl | hr'
      · exact hrowmem kv ((mem_eraseA_iff _ _ _).mp hkv).1
      · exact (mem_weightsAll_iff g kv.2).mpr ⟨r, hr', kv, hkv, rfl⟩
    refine ⟨⟨?_, ?_⟩, ?_, ?_⟩
    · rw [hadj1]
      exact keysA_setA_nodup _ _ _ hkeys
    · rw [hadj1]
      intro r hr
      rcases mem_setA_elim _ _ _ _ hr with rfl | hr'
      · exact ((eraseA_sublist _ _).map _).nodup hrownd
      · exact hrows r hr'
    · intro x hx
      exact hpos x (hmemElim x hx)
    · rw [hstaleEq, hcacheE]
      intro hstale
      cases hwt : getA ((getA g.adjacency s).getD []) t with
      | none =>
        rw [hwt] at hstale
        have hst : g.max_weight_stale = false := hstale
        obtain ⟨hub, hat⟩ := hcache hst
        refine ⟨fun x hx => hub x (hmemElim x hx), ?_⟩
        rcases hat with h0 | hmem
        · exact Or.inl h0
        · right
          obtain ⟨r, hr, kv, hkv, hkx⟩ := (mem_weightsAll_iff _ _).mp hmem
          by_cases hrs : r.1 = s
          · have hrget : getA g.adjacency s = some r.2 := by
              rw [← hrs]
              exact getA_eq_of_mem_nodup _ _ _ hkeys (by
                rw [show (r.1, r.2) = r from rfl]
                exact hr)
            have hroweq : (getA g.adjacency s).getD
                ([] : List (String × ℚ)) = r.2 := by
              rw [hrget]
              rfl
            by_cases hkt : kv.1 = t
            · have hc2 : getA ((getA g.adjacency s).getD []) t
                  = some kv.2 := by
                rw [hroweq, ← hkt]
                exact getA_eq_of_mem_nodup _ _ _ (hrows r hr) (by
                  rw [show (kv.1, kv.2) = kv from rfl]
                  exact hkv)
              rw [hwt] at hc2
              cases hc2
            · refine (hmemIff _).mpr
                ⟨(s, eraseA ((getA g.adjacency s).getD []) t),
                mem_setA_self _ _ _, kv, ?_, hkx⟩
              refine (mem_eraseA_iff _ _ _).mpr ⟨?_, hkt⟩
              rw [hroweq]
              exact hkv
          · exact (hmemIff _).mpr
              ⟨r, mem_setA_of_ne _ _ _ _ hr hrs, kv, hkv, hkx⟩
      | some w =>
        rw [hwt] at hstale
        have hif : (if g.max_weight_cache ≤ w then true
            else g.max_weight_stale) = false := hstale
        have hnle : ¬ g.max_weight_cache ≤ w := by
          intro h
          rw [if_pos h] at hif
          cases hif
        have hst : g.max_weight_stale = false := by rwa [if_neg hnle] at hif
        obtain ⟨hub, hat⟩ := hcache hst
        refine ⟨fun x hx => hub x (hmemElim x hx), ?_⟩
        rcases hat with h0 | hmem
        · exact Or.inl h0
        · right
          obtain ⟨r, hr, kv, hkv, hkx⟩ := (mem_weightsAll_iff _ _).mp hmem
          by_cases hrs : r.1 = s
          · have hrget : getA g.adjacency s = some r.2 := by
              rw [← hrs]
              exact getA_eq_of_mem_nodup _ _ _ hkeys (by
                rw [show (r.1, r.2) = r from rfl]
                exact hr)
            have hroweq : (getA g.adjacency s).getD
                ([] : List (String × ℚ)) = r.2 := by
              rw [hrget]
              rfl
            by_cases hkt : kv.1 = t
            · have hc2 : getA ((getA g.adjacency s).getD []) t
                  = some kv.2 := by
                rw [hroweq, ← hkt]
                exact getA_eq_of_mem_nodup _ _ _ (hrows r hr) (by
                  rw [show (kv.1, kv.2) = kv from rfl]
                  exact hkv)
              rw [hwt] at hc2
              have hwk : w = kv.2 := Option.some.inj hc2
              exact absurd (le_of_eq (by rw [← hkx, ← hwk])) hnle
            · refine (hmemIff _).mpr
                ⟨(s, eraseA ((getA g.adjacency s).getD []) t),
                mem_setA_self _ _ _, kv, ?_, hkx⟩
              refine (mem_eraseA_iff _ _ _).mpr ⟨?_, hkt⟩
              rw [hroweq]
              exact hkv
          · exact (hmemIff _).mpr
              ⟨r, mem_setA_of_ne _ _ _ _ hr hrs, kv, hkv, hkx⟩
  · have hgnone : getA g.adjacency s = none :=
      getA_eq_none_of_not_contains _ _ (Bool.eq_false_iff.mpr hcA)
    have hadj1 : (g.removeEdge s t).adjacency = g.adjacency := by
      rw [hadj, if_neg hcA]
    have hstale1 : (g.removeEdge s t).max_weight_stale
        = g.max_weight_stale := by
      rw [hstaleEq, hgnone]
      rfl
    exact MaxInv_congr g _ hadj1 hcacheE hstale1 ⟨⟨hkeys, hrows⟩, hpos, hcache⟩

/-- `add_connection` preserves the cache invariant. -/
theorem inv_add_connection (g : SocGraph) (a b : String) (delta : PyFloat)
    (ctxs : List (String × PyFloat)) (symmetric : Bool)
    (hinv : MaxInv g) : MaxInv (g.add_connection a b delta ctxs symmetric).1 := by
  rw [SocGraph.add_connection]
  by_cases h1 : a = b
  · rw [if_pos h1]
    exact hinv
  rw [if_neg h1]
  by_cases h2 : delta.isfinite = false
  · rw [if_pos h2]
    exact hinv
  rw [if_neg h2]
  by_cases h3 : ctxs.any (fun c => c.2.isfinite = false) = true
  · rw [if_pos h3]
    exact hinv
  rw [if_neg h3]
  by_cases h4 : containsA g.people a = false
  · rw [if_pos h4]
    exact hinv
  rw [if_neg h4]
  by_cases h5 : containsA g.people b = false
  · rw [if_pos h5]
    exact hinv
  rw [if_neg h5]
  cases symmetric with
  | false => exact inv_incrementEdge _ _ _ _ _ hinv
  | true => exact inv_incrementEdge _ _ _ _ _ (inv_incrementEdge _ _ _ _ _ hinv)

/-- `remove_connection` preserves the cache invariant. -/
theorem inv_remove_connection (g : SocGraph) (a b : String) (symmetric : Bool)
    (hinv : MaxInv g) : MaxInv (g.remove_connection a b symmetric).1 := by
  rw [SocGraph.remove_connection]
  by_cases h1 : containsA g.people a = true
  · rw [SocGraph.ensure_person, if_pos h1]
    by_cases h2 : containsA g.people b = true
    · rw [SocGraph.ensure_person, if_pos h2]
      cases symmetric with
      | false => exact inv_removeEdge _ _ _ hinv
      | true => exact inv_removeEdge _ _ _ (inv_removeEdge _ _ _ hinv)
    · rw [SocGraph.ensure_person, if_neg h2]
      exact hinv
  · rw [SocGraph.ensure_person, if_neg h1]
    exact hinv

/-- Every graph-store operation preserves the cache invariant. -/
theorem inv_applyOp (g : SocGraph) (op : Op) (hinv : MaxInv g) :
    MaxInv (applyOp g op) := by
  cases op with
  | addPerson p ow => exact inv_add_person g p ow hinv
  | removePerson pid => exact inv_remove_person g pid hinv
  | addConnection a b d c s => exact inv_add_connection g a b d c s hinv
  | removeConnection a b s => exact inv_remove_connection g a b s hinv

/-- Any operation sequence from the empty graph satisfies the invariant. -/
theorem inv_runOps (ops : List Op) : MaxInv (runOps ops) := by
  suffices h : ∀ (l : List Op) (g : SocGraph), MaxInv g →
      MaxInv (l.foldl applyOp g) by
    exact h ops SocGraph.empty inv_empty
  intro l
  induction l with
  | nil =>
    intro g hg
    exact hg
  | cons op rest ih =>
    intro g hg
    exact ih _ (inv_applyOp g op hg)

def opsW2 : List Op :=
  [Op.addPerson { id := "a" } true, Op.addPerson { id := "b" } true,
   Op.addPerson { id := "c" } true,
   Op.addConnection "a" "b" (.fin 10) [] false,
   Op.addConnection "b" "c" (.fin 4) [] false,
   Op.addConnection "a" "b" (.fin (-3)) [] false]

/-- C2: after any sequence of graph-store operations on an initially empty
graph, `max_weight()` returns exactly the true maximum over all currently
stored edge weights — an upper bound that is itself stored whenever any edge
is stored — and returns 0 when no edges are stored. -/
theorem claimC2 (ops : List Op) :
    (runOps ops).max_weight = SocGraph.listMax (weightsAll (runOps ops)) ∧
    (∀ w ∈ weightsAll (runOps ops), w ≤ (runOps ops).max_weight) ∧
    (weightsAll (runOps ops) = [] → (runOps ops).max_weight = 0) ∧
    (weightsAll (runOps ops) ≠ [] →
      (runOps ops).max_weight ∈ weightsAll (runOps ops)) := by
  have hinv := inv_runOps ops
  have heq := max_weight_of_inv _ hinv
  obtain ⟨hwf, hpos, hcache⟩ := hinv
  refine ⟨heq, ?_, ?_, ?_⟩
  · intro w hw
    rw [heq]
    exact le_listMax _ _ hw
  · intro h
    rw [heq, h]
    rfl
  · intro h
    rw [heq]
    apply listMax_mem
    obtain ⟨w, hw⟩ := List.exists_mem_of_ne_nil _ h
    exact ne_of_gt (lt_of_lt_of_le (hpos w hw) (le_listMax _ _ hw))

/-- C2 witness: add `a`,`b`,`c`; set a→b to 10 and b→c to 4; decrement a→b
by 3.  `max_weight()` then reads 7, not 10, and 7 is itself a stored weight. -/
theorem claimC2_witness :
    (runOps opsW2).max_weight = 7 ∧ ((7 : ℚ) ≠ 10) ∧
    (runOps opsW2).max_weight ∈ weightsAll (runOps opsW2) ∧
    (runOps opsW2).get_edge_weight "a" "b" = some 7 :=
  ⟨by decide, by decide, (claimC2 opsW2).2.2.2 (by decide), by decide⟩

/-! ## Claim C8: unreachable goals and trivial paths -/

/-- Reachability through positive-weight adjacency edges — exactly the edges
`dijkstra_shortest_path` can traverse (non-positive weights are impassable). -/
inductive Reach (g : SocGraph) (start : String) : String → Prop
  | refl : Reach g start start
  | step {a b : String} {w : ℚ} (ha : Reach g start a)
      (hw : (b, w) ∈ (getA g.adjacency a).getD ([] : List (String × ℚ)))
      (hpos : 0 < w) : Reach g start b

/-- A set closed under positive out-edges and containing the start contains
everything reachable. -/
theorem reach_subset (g : SocGraph) (start : String) (S : List String)
    (hstart : start ∈ S)
    (hclosed : ∀ a ∈ S, ∀ kv ∈ (getA g.adjacency a).getD
      ([] : List (String × ℚ)), 0 < kv.2 → kv.1 ∈ S) :
    ∀ x, Reach g start x → x ∈ S := by
  intro x h
  induction h with
  | refl => exact hstart
  | step ha hw hpos ih => exact hclosed _ ih _ hw hpos

/-- The loop's termination potential: pending queue entries plus one unit and
one out-degree for every candidate node not yet settled in `best`. -/
def phi (g : SocGraph) (start : String) (queue : List QItem)
    (best : List (String × Qinf)) : ℕ :=
  queue.length + (((allNodes g start).filter
    (fun n => !(containsA best n))).map (fun n => g.degreeOf n + 1)).sum

/-- One comparison step of a lexicographic order. -/
def lexStep {α : Type} [LinearOrder α]
    [i : DecidableRel (fun a b : α => a < b)] (a b : α) (rest : Bool) : Bool :=
  if a < b then true else if b < a then false else rest

theorem lexStep_self {α : Type} [LinearOrder α]
    [i : DecidableRel (fun a b : α => a < b)] (a : α) (r : Bool) :
    lexStep a a r = r := by
  rw [lexStep, if_neg (lt_irrefl a), if_neg (lt_irrefl a)]

theorem lexStep_total {α : Type} [LinearOrder α]
    [i : DecidableRel (fun a b : α => a < b)] (a b : α) (r1 r2 : Bool)
    (hr : r1 = true ∨ r2 = true) :
    lexStep a b r1 = true ∨ lexStep b a r2 = true := by
  rcases lt_trichotomy a b with h | h | h
  · left
    rw [lexStep, if_pos h]
  · subst h
    rw [lexStep_self, lexStep_self]
    exact hr
  · right
    rw [lexStep, if_pos h]

theorem lexStep_trans {α : Type} [LinearOrder α]
    [i : DecidableRel (fun a b : α => a < b)] {a b c : α} {r1 r2 r3 : Bool}
    (h1 : lexStep a b r1 = true) (h2 : lexStep b c r2 = true)
    (hr : r1 = true → r2 = true → r3 = true) : lexStep a c r3 = true := by
  rcases lt_trichotomy a b with hab | hab | hab
  · rcases lt_trichotomy b c with hbc | hbc | hbc
    · rw [lexStep, if_pos (lt_trans hab hbc)]
    · subst hbc
      rw [lexStep, if_pos hab]
    · rw [lexStep, if_neg (lt_asymm hbc), if_pos hbc] at h2
      cases h2
  · subst hab
    rw [lexStep_self] at h1
    rcases lt_trichotomy a c with hac | hac | hac
    · rw [lexStep, if_pos hac]
    · subst hac
      rw [lexStep_self] at h2 ⊢
      exact hr h1 h2
    · rw [lexStep, if_neg (lt_asymm hac), if_pos hac] at h2
      cases h2
  · rw [lexStep, if_neg (lt_asymm hab), if_pos hab] at h1
    cases h1

theorem lexStep_le {α : Type} [LinearOrder α]
    [i : DecidableRel (fun a b : α => a < b)] {a b : α} {r : Bool}
    (h : lexStep a b r = true) : a ≤ b := by
  rcases lt_trichotomy a b with hab | hab | hab
  · exact le_of_lt hab
  · exact le_of_eq hab
  · rw [lexStep, if_neg (lt_asymm hab), if_pos hab] at h
    cases h

theorem charsLt_cons (a b : Char) (as bs : List Char) :
    charsLt (a :: as) (b :: bs) = lexStep a.toNat b.toNat (charsLt as bs) := rfl

theorem charsLt_nil_right (l : List Char) : charsLt l [] = false := by
  cases l with
  | nil => rfl
  | cons a as => rfl

theorem charsLt_irrefl (l : List Char) : charsLt l l = false := by
  induction l with
  | nil => rfl
  | cons a as ih =>
    rw [charsLt_cons, lexStep_self]
    exact ih

theorem charsLt_trans {a b c : List Char} (h1 : charsLt a b = true)
    (h2 : charsLt b c = true) : charsLt a c = true := by
  induction a generalizing b c with
  | nil =>
    cases c with
    | nil =>
      rw [charsLt_nil_right] at h2
      cases h2
    | cons z zs => rfl
  | cons x xs ih =>
    cases b with
    | nil =>
      rw [charsLt_nil_right] at h1
      cases h1
    | cons y ys =>
      cases c with
      | nil =>
        rw [charsLt_nil_right] at h2
        cases h2
      | cons z zs =>
        rw [charsLt_cons] at h1 h2 ⊢
        exact lexStep_trans h1 h2 (fun p q => ih p q)

theorem charsLt_eq {a b : List Char} (h1 : charsLt a b = false)
    (h2 : charsLt b a = false) : a = b := by
  induction a generalizing b with
  | nil =>
    cases b with
    | nil => rfl
    | cons y ys => cases h1
  | cons x xs ih =>
    cases b with
    | nil => cases h2
    | cons y ys =>
      rw [charsLt_cons] at h1 h2
      rcases lt_trichotomy x.toNat y.toNat with hlt | heq | hgt
      · rw [lexStep, if_pos hlt] at h1
        cases h1
      · have hx : x = y := Char.eq_of_val_eq (UInt32.ext heq)
        subst hx
        rw [lexStep_self] at h1 h2
        rw [ih h1 h2]
      · rw [lexStep, if_pos hgt] at h2
        cases h2

theorem strLt_irrefl (a : String) : strLt a a = false := charsLt_irrefl _

theorem strLt_trans {a b c : String} (h1 : strLt a b = true)
    (h2 : strLt b c = true) : strLt a c = true := charsLt_trans h1 h2

theorem strLt_eq {a b : String} (h1 : strLt a b = false)
    (h2 : strLt b a = false) : a = b := by
  have hd : a.data = b.data := charsLt_eq h1 h2
  cases a with
  | mk da =>
    cases b with
    | mk db => exact congrArg String.mk hd

/-- One comparison step of the string-keyed lexicographic order. -/
def strStep (a b : String) (rest : Bool) : Bool :=
  if strLt a b then true else if strLt b a then false else rest

theorem strStep_self (a : String) (r : Bool) : strStep a a r = r := by
  rw [strStep, strLt_irrefl]
  simp

theorem strStep_total (a b : String) (r1 r2 : Bool)
    (hr : r1 = true ∨ r2 = true) :
    strStep a b r1 = true ∨ strStep b a r2 = true := by
  by_cases hab : strLt a b = true
  · left
    rw [strStep, if_pos hab]
  · by_cases hba : strLt b a = true
    · right
      rw [strStep, if_pos hba]
    · have heq := strLt_eq (Bool.eq_false_iff.mpr hab) (Bool.eq_false_iff.mpr hba)
      subst heq
      rw [strStep_self, strStep_self]
      exact hr

theorem strStep_trans {a b c : String} {r1 r2 r3 : Bool}
    (h1 : strStep a b r1 = true) (h2 : strStep b c r2 = true)
    (hr : r1 = true → r2 = true → r3 = true) : strStep a c r3 = true := by
  by_cases hab : strLt a b = true
  · by_cases hbc : strLt b c = true
    · rw [strStep, if_pos (strLt_trans hab hbc)]
    · by_cases hcb : strLt c b = true
      · rw [strStep, if_neg hbc, if_pos hcb] at h2
        cases h2
      · have heq := strLt_eq (Bool.eq_false_iff.mpr hbc)
          (Bool.eq_false_iff.mpr hcb)
        subst heq
        rw [strStep, if_pos hab]
  · by_cases hba : strLt b a = true
    · rw [strStep, if_neg hab, if_pos hba] at h1
      cases h1
    · have heq := strLt_eq (Bool.eq_false_iff.mpr hab) (Bool.eq_false_iff.mpr hba)
      subst heq
      rw [strStep_self] at h1
      by_cases hac : strLt a c = true
      · rw [strStep, if_pos hac]
      · by_cases hca : strLt c a = true
        · rw [strStep, if_neg hac, if_pos hca] at h2
          cases h2
        · rw [strStep, if_neg hac, if_neg hca] at h2 ⊢
          exact hr h1 h2

theorem trailLE_cons (a b : String) (as bs : List String) :
    trailLE (a :: as) (b :: bs) = strStep a b (trailLE as bs) := rfl

theorem itemLE_eq (x y : QItem) :
    itemLE x y
      = lexStep x.1 y.1 (strStep x.2.1 y.2.1 (trailLE x.2.2 y.2.2)) := rfl

theorem trailLE_refl (l : List String) : trailLE l l = true := by
  induction l with
  | nil => rfl
  | cons a as ih =>
    rw [trailLE_cons, strStep_self]
    exact ih

theorem trailLE_total (a b : List String) :
    trailLE a b = true ∨ trailLE b a = true := by
  induction a generalizing b with
  | nil => exact Or.inl rfl
  | cons x xs ih =>
    cases b with
    | nil => exact Or.inr rfl
    | cons y ys =>
      rw [trailLE_cons, trailLE_cons]
      exact strStep_total x y _ _ (ih ys)

theorem trailLE_trans {a b c : List String} (h1 : trailLE a b = true)
    (h2 : trailLE b c = true) : trailLE a c = true := by
  induction a generalizing b c with
  | nil => rfl
  | cons x xs ih =>
    cases b with
    | nil => cases h1
    | cons y ys =>
      cases c with
      | nil => cases h2
      | cons z zs =>
        rw [trailLE_cons] at h1 h2 ⊢
        exact strStep_trans h1 h2 (fun ha hb => ih ha hb)

theorem itemLE_refl (x : QItem) : itemLE x x = true := by
  rw [itemLE_eq, lexStep_self, strStep_self]
  exact trailLE_refl _

theorem itemLE_total (x y : QItem) : itemLE x y = true ∨ itemLE y x = true := by
  rw [itemLE_eq, itemLE_eq]
  exact lexStep_total _ _ _ _ (strStep_total _ _ _ _ (trailLE_total _ _))

theorem itemLE_trans {x y z : QItem} (h1 : itemLE x y = true)
    (h2 : itemLE y z = true) : itemLE x z = true := by
  rw [itemLE_eq] at h1 h2 ⊢
  exact lexStep_trans h1 h2
    (fun a b => strStep_trans a b (fun c d => trailLE_trans c d))

theorem itemLE_fst_le {x y : QItem} (h : itemLE x y = true) : x.1 ≤ y.1 := by
  rw [itemLE_eq] at h
  exact lexStep_le h

theorem popMin_eq_none {q : List QItem} (h : popMin q = none) : q = [] := by
  cases q with
  | nil => rfl
  | cons x xs =>
    rw [popMin] at h
    cases hx : popMin xs with
    | none =>
      rw [hx] at h
      cases h
    | some mr =>
      obtain ⟨m, r⟩ := mr
      rw [hx] at h
      have h2 : (if itemLE x m = true then some (x, xs)
          else some (m, x :: r)) = (none : Option (QItem × List QItem)) := h
      by_cases hle : itemLE x m = true
      · rw [if_pos hle] at h2
        cases h2
      · rw [if_neg hle] at h2
        cases h2

theorem popMin_perm (q : List QItem) (m : QItem) (rest : List QItem)
    (h : popMin q = some (m, rest)) : List.Perm q (m :: rest) := by
  induction q generalizing m rest with
  | nil => simp [popMin] at h
  | cons x xs ih =>
    rw [popMin] at h
    cases hx : popMin xs with
    | none =>
      rw [hx] at h
      have h2 : some (x, ([] : List QItem)) = some (m, rest) := h
      simp only [Option.some.injEq, Prod.mk.injEq] at h2
      obtain ⟨rfl, hrest⟩ := h2
      have hxs : xs = [] := popMin_eq_none hx
      subst hxs
      rw [← hrest]
    | some mr =>
      obtain ⟨ma, resta⟩ := mr
      rw [hx] at h
      have h2 : (if itemLE x ma = true then some (x, xs)
          else some (ma, x :: resta)) = some (m, rest) := h
      by_cases hle : itemLE x ma = true
      · rw [if_pos hle] at h2
        simp only [Option.some.injEq, Prod.mk.injEq] at h2
        obtain ⟨heq, hrest⟩ := h2
        subst heq
        rw [← hrest]
      · rw [if_neg hle] at h2
        simp only [Option.some.injEq, Prod.mk.injEq] at h2
        obtain ⟨heq, hrest⟩ := h2
        subst heq
        rw [← hrest]
        exact ((ih _ _ hx).cons x).trans (List.Perm.swap ma x resta)

theorem popMin_min (q : List QItem) (m : QItem) (rest : List QItem)
    (h : popMin q = some (m, rest)) : ∀ x ∈ q, itemLE m x = true := by
  induction q generalizing m rest with
  | nil => simp [popMin] at h
  | cons x xs ih =>
    rw [popMin] at h
    cases hx : popMin xs with
    | none =>
      rw [hx] at h
      have h2 : some (x, ([] : List QItem)) = some (m, rest) := h
      simp only [Option.some.injEq, Prod.mk.injEq] at h2
      obtain ⟨rfl, _⟩ := h2
      have hxs : xs = [] := popMin_eq_none hx
      subst hxs
      intro y hy
      rcases List.mem_cons.mp hy with rfl | hy'
      · exact itemLE_refl _
      · cases hy'
    | some mr =>
      obtain ⟨ma, resta⟩ := mr
      rw [hx] at h
      have h2 : (if itemLE x ma = true then some (x, xs)
          else some (ma, x :: resta)) = some (m, rest) := h
      by_cases hle : itemLE x ma = true
      · rw [if_pos hle] at h2
        simp only [Option.some.injEq, Prod.mk.injEq] at h2
        obtain ⟨heq, _⟩ := h2
        subst heq
        intro y hy
        rcases List.mem_cons.mp hy with rfl | hy'
        · exact itemLE_refl _
        · exact itemLE_trans hle (ih _ _ hx y hy')
      · rw [if_neg hle] at h2
        simp only [Option.some.injEq, Prod.mk.injEq] at h2
        obtain ⟨heq, _⟩ := h2
        subst heq
        intro y hy
        rcases List.mem_cons.mp hy with rfl | hy'
        · rcases itemLE_total y ma with h' | h'
          · exact absurd h' hle
          · exact h'
        · exact ih _ _ hx y hy'

/-- Every edge cost is nonnegative, for every strategy. -/
theorem edge_cost_nonneg (c : CostComputer) (w : ℚ) :
    (0 : Qinf) ≤ c.edge_cost w := by
  rw [CostComputer.edge_cost]
  by_cases hw : w ≤ 0
  · rw [if_pos hw]
    exact le_top
  · rw [if_neg hw]
    cases hs : c.strategy with
    | inverted =>
      show (0 : Qinf) ≤ ((1 / w : ℚ) : Qinf)
      exact_mod_cast le_of_lt (div_pos one_pos (lt_of_not_le hw))
    | fixed =>
      show (0 : Qinf) ≤ (((c.fixed_high
        - min c.fixed_high (max 1 (w / c.max_weight * c.fixed_high))) + 1 : ℚ)
        : Qinf)
      have h1 : (0 : ℚ) ≤ c.fixed_high
          - min c.fixed_high (max 1 (w / c.max_weight * c.fixed_high)) :=
        sub_nonneg.mpr (min_le_left _ _)
      exact_mod_cast add_nonneg h1 zero_le_one
    | dynamic =>
      show (0 : Qinf) ≤ (((max c.max_weight w - w) + 1 : ℚ) : Qinf)
      have h1 : (0 : ℚ) ≤ max c.max_weight w - w :=
        sub_nonneg.mpr (le_max_right _ _)
      exact_mod_cast add_nonneg h1 zero_le_one

theorem dijkstraLoop_pop_none (g : SocGraph) (goal : String)
    (c : CostComputer) (fuel : ℕ) (queue : List QItem)
    (best : List (String × Qinf)) (hq : popMin queue = none) :
    dijkstraLoop g goal c fuel queue best = .result none := by
  rw [dijkstraLoop, hq]

theorem dijkstraLoop_skip (g : SocGraph) (goal : String) (c : CostComputer)
    (fuel : ℕ) (queue : List QItem) (best : List (String × Qinf))
    (item : QItem) (rest : List QItem)
    (hq : popMin queue = some (item, rest))
    (hskip : (match getA best item.2.1 with
      | some b => decide (b ≤ item.1)
      | none => false) = true) :
    dijkstraLoop g goal c (fuel + 1) queue best
      = dijkstraLoop g goal c fuel rest best := by
  rw [dijkstraLoop, hq]
  show (if (match getA best item.2.1 with
      | some b => decide (b ≤ item.1)
      | none => false) = true
    then dijkstraLoop g goal c fuel rest best
    else _) = dijkstraLoop g goal c fuel rest best
  rw [if_pos hskip]

theorem dijkstraLoop_hit (g : SocGraph) (goal : String) (c : CostComputer)
    (fuel : ℕ) (queue : List QItem) (best : List (String × Qinf))
    (item : QItem) (rest : List QItem)
    (hq : popMin queue = some (item, rest))
    (hskip : (match getA best item.2.1 with
      | some b => decide (b ≤ item.1)
      | none => false) = false)
    (hg : item.2.1 = goal) :
    dijkstraLoop g goal c (fuel + 1) queue best
      = (match build_path_result g (item.2.2 ++ [item.2.1]) c with
        | .ok r => DijkstraOut.result (some r)
        | .error e => DijkstraOut.failure e) := by
  have hskipn : ¬((match getA best item.2.1 with
      | some b => decide (b ≤ item.1)
      | none => false) = true) := by
    rw [hskip]
    exact (by decide)
  rw [dijkstraLoop, hq]
  show (if (match getA best item.2.1 with
      | some b => decide (b ≤ item.1)
      | none => false) = true
    then dijkstraLoop g goal c fuel rest best
    else _) = _
  rw [if_neg hskipn]
  show (if item.2.1 = goal then
      (match build_path_result g (item.2.2 ++ [item.2.1]) c with
        | .ok r => DijkstraOut.result (some r)
        | .error e => DijkstraOut.failure e)
    else _) = _
  rw [if_pos hg]

theorem dijkstraLoop_expand (g : SocGraph) (goal : String) (c : CostComputer)
    (fuel : ℕ) (queue : List QItem) (best : List (String × Qinf))
    (item : QItem) (rest : List QItem)
    (hq : popMin queue = some (item, rest))
    (hskip : (match getA best item.2.1 with
      | some b => decide (b ≤ item.1)
      | none => false) = false)
    (hg : item.2.1 ≠ goal) :
    dijkstraLoop g goal c (fuel + 1) queue best
      = dijkstraLoop g goal c fuel
          (rest ++ ((getA g.adjacency item.2.1).getD []).filterMap (fun nw =>
            if c.edge_cost nw.2 = ⊤ then none
            else some ((item.1 + c.edge_cost nw.2, nw.1,
              item.2.2 ++ [item.2.1]) : QItem)))
          (setA best item.2.1 item.1) := by
  have hskipn : ¬((match getA best item.2.1 with
      | some b => decide (b ≤ item.1)
      | none => false) = true) := by
    rw [hskip]
    exact (by decide)
  rw [dijkstraLoop, hq]
  show (if (match getA best item.2.1 with
      | some b => decide (b ≤ item.1)
      | none => false) = true
    then dijkstraLoop g goal c fuel rest best
    else _) = _
  rw [if_neg hskipn]
  show (if item.2.1 = goal then _
    else dijkstraLoop g goal c fuel
      (rest ++ ((getA g.adjacency item.2.1).getD []).filterMap (fun nw =>
        if c.edge_cost nw.2 = ⊤ then none
        else some ((item.1 + c.edge_cost nw.2, nw.1,
          item.2.2 ++ [item.2.1]) : QItem)))
      (setA best item.2.1 item.1)) = _
  rw [if_neg hg]

theorem allNodes_nodup (g : SocGraph) (start : String) :
    (allNodes g start).Nodup := by
  rw [allNodes]
  exact List.nodup_dedup _

theorem start_mem_allNodes (g : SocGraph) (start : String) :
    start ∈ allNodes g start := by
  rw [allNodes, List.mem_dedup]
  exact List.mem_cons_self _ _

/-- Splitting off one settled element from the potential sum. -/
theorem sum_over_filter_erase (L : List String) (f : String → ℕ)
    (p : String → Bool) (node : String) (hnd : L.Nodup) (hmem : node ∈ L)
    (hp : p node = true) :
    ((L.filter p).map f).sum
      = f node
        + (((L.filter p).filter (fun n => !(decide (n = node)))).map f).sum := by
  have hmem2 : node ∈ L.filter p := List.mem_filter.mpr ⟨hmem, hp⟩
  have hnd2 : (L.filter p).Nodup := hnd.filter p
  have hperm : List.Perm (L.filter p) (node :: (L.filter p).erase node) :=
    List.perm_cons_erase hmem2
  have herase : (L.filter p).erase node
      = (L.filter p).filter (fun n => !(decide (n = node))) := by
    rw [hnd2.erase_eq_filter]
    apply List.filter_congr
    intro a _
    by_cases h : a = node
    · subst h
      simp
    · simp [h]
  rw [List.Perm.sum_eq (hperm.map f), List.map_cons, List.sum_cons, herase]

/-- When the goal is unreachable, the loop always drains its queue and
returns `none` — the provided fuel bound (the potential `phi`) suffices. -/
theorem dijkstraLoop_unreach (g : SocGraph) (start goal : String)
    (c : CostComputer) (hngoal : ¬ Reach g start goal) :
    ∀ (fuel : ℕ) (queue : List QItem) (best : List (String × Qinf)),
    (∀ it ∈ queue, Reach g start it.2.1) →
    (∀ it ∈ queue, it.2.1 ∈ allNodes g start) →
    (∀ nb ∈ best, ∀ it ∈ queue, nb.2 ≤ it.1) →
    phi g start queue best ≤ fuel →
    dijkstraLoop g goal c fuel queue best = .result none := by
  intro fuel
  induction fuel with
  | zero =>
    intro queue best hreach hqall hA hphi
    cases hq : popMin queue with
    | none => exact dijkstraLoop_pop_none g goal c 0 queue best hq
    | some mr =>
      obtain ⟨m, rest⟩ := mr
      have hperm := popMin_perm queue m rest hq
      have hlen : queue.length = rest.length + 1 := by
        rw [hperm.length_eq]
        rfl
      exfalso
      rw [phi, hlen] at hphi
      omega
  | succ fuel ih =>
    intro queue best hreach hqall hA hphi
    cases hq : popMin queue with
    | none => exact dijkstraLoop_pop_none g goal c _ queue best hq
    | some mr =>
      obtain ⟨m, rest⟩ := mr
      have hperm := popMin_perm queue m rest hq
      have hmin := popMin_min queue m rest hq
      have hmq : m ∈ queue := hperm.symm.subset (List.mem_cons_self _ _)
      have hrest_sub : ∀ x ∈ rest, x ∈ queue := fun x hx =>
        hperm.symm.subset (List.mem_cons_of_mem _ hx)
      have hlen : queue.length = rest.length + 1 := by
        rw [hperm.length_eq]
        rfl
      by_cases hskip : (match getA best m.2.1 with
        | some b => decide (b ≤ m.1)
        | none => false) = true
      · rw [dijkstraLoop_skip g goal c fuel queue best m rest hq hskip]
        apply ih rest best
        · exact fun it hit => hreach it (hrest_sub it hit)
        · exact fun it hit => hqall it (hrest_sub it hit)
        · exact fun nb hnb it hit => hA nb hnb it (hrest_sub it hit)
        · rw [phi] at hphi ⊢
          omega
      · have hskipf : (match getA best m.2.1 with
          | some b => decide (b ≤ m.1)
          | none => false) = false := Bool.eq_false_iff.mpr hskip
        have hbnone : getA best m.2.1 = none := by
          cases hb : getA best m.2.1 with
          | none => rfl
          | some b =>
            rw [hb] at hskipf
            have hnle : ¬ b ≤ m.1 := of_decide_eq_false hskipf
            exact absurd (hA (m.2.1, b) (mem_of_getA_eq _ _ _ hb) m hmq) hnle
        have hnodegoal : m.2.1 ≠ goal := by
          intro h
          exact hngoal (h ▸ hreach m hmq)
        rw [dijkstraLoop_expand g goal c fuel queue best m rest hq hskipf
          hnodegoal]
        apply ih
        · intro it hit
          rcases List.mem_append.mp hit with h | h
          · exact hreach it (hrest_sub it h)
          · obtain ⟨nw, hnw, hmk⟩ := List.mem_filterMap.mp h
            by_cases hec : c.edge_cost nw.2 = ⊤
            · rw [if_pos hec] at hmk
              cases hmk
            · rw [if_neg hec] at hmk
              simp only [Option.some.injEq] at hmk
              subst hmk
              have hwpos : 0 < nw.2 := by
                by_contra hle
                exact hec (by
                  rw [CostComputer.edge_cost, if_pos (le_of_not_lt hle)])
              exact Reach.step (hreach m hmq) hnw hwpos
        · intro it hit
          rcases List.mem_append.mp hit with h | h
          · exact hqall it (hrest_sub it h)
          · obtain ⟨nw, hnw, hmk⟩ := List.mem_filterMap.mp h
            by_cases hec : c.edge_cost nw.2 = ⊤
            · rw [if_pos hec] at hmk
              cases hmk
            · rw [if_neg hec] at hmk
              simp only [Option.some.injEq] at hmk
              subst hmk
              cases hrow : getA g.adjacency m.2.1 with
              | none =>
                rw [hrow] at hnw
                cases hnw
              | some r =>
                rw [hrow] at hnw
                rw [allNodes, List.mem_dedup]
                refine List.mem_cons_of_mem _ ?_
                rw [List.mem_flatMap]
                exact ⟨(m.2.1, r), mem_of_getA_eq _ _ _ hrow, by
                  rw [keysA]
                  exact List.mem_map.mpr ⟨nw, hnw, rfl⟩⟩
        · intro nb hnb it hit
          rcases mem_setA_elim best m.2.1 m.1 nb hnb with heq | hnb2
          · subst heq
            rcases List.mem_append.mp hit with h | h
            · exact itemLE_fst_le (hmin it (hrest_sub it h))
            · obtain ⟨nw, hnw, hmk⟩ := List.mem_filterMap.mp h
              by_cases hec : c.edge_cost nw.2 = ⊤
              · rw [if_pos hec] at hmk
                cases hmk
              · rw [if_neg hec] at hmk
                simp only [Option.some.injEq] at hmk
                subst hmk
                exact le_add_of_nonneg_right (edge_cost_nonneg c nw.2)
          · rcases List.mem_append.mp hit with h | h
            · exact hA nb hnb2 it (hrest_sub it h)
            · obtain ⟨nw, hnw, hmk⟩ := List.mem_filterMap.mp h
              by_cases hec : c.edge_cost nw.2 = ⊤
              · rw [if_pos hec] at hmk
                cases hmk
              · rw [if_neg hec] at hmk
                simp only [Option.some.injEq] at hmk
                subst hmk
                exact le_trans (hA nb hnb2 m hmq)
                  (le_add_of_nonneg_right (edge_cost_nonneg c nw.2))
        · have hcont : containsA best m.2.1 = false := by
            rw [containsA, hbnone]
            rfl
          have hmall : m.2.1 ∈ allNodes g start := hqall m hmq
          have hfilter2 : (allNodes g start).filter
              (fun n => !(containsA (setA best m.2.1 m.1) n))
              = ((allNodes g start).filter (fun n => !(containsA best n))).filter
                (fun n => !(decide (n = m.2.1))) := by
            rw [List.filter_filter]
            apply List.filter_congr
            intro n _
            by_cases hn : n = m.2.1
            · subst hn
              rw [show containsA (setA best m.2.1 m.1) m.2.1 = true from by
                rw [containsA, getA_setA_self]
                rfl]
              simp
            · rw [show containsA (setA best m.2.1 m.1) n = containsA best n
                from by rw [containsA, containsA, getA_setA_ne _ _ _ _ hn]]
              simp [hn]
          have hsum := sum_over_filter_erase (allNodes g start)
            (fun n => g.degreeOf n + 1) (fun n => !(containsA best n)) m.2.1
            (allNodes_nodup g start) hmall (by simp [hcont])
          have hsum2 : (((allNodes g start).filter
              (fun n => !(containsA best n))).map
              (fun n => g.degreeOf n + 1)).sum
              = (g.degreeOf m.2.1 + 1)
                + ((((allNodes g start).filter
                  (fun n => !(containsA best n))).filter
                  (fun n => !(decide (n = m.2.1)))).map
                  (fun n => g.degreeOf n + 1)).sum := hsum
          have hlenpush : (((getA g.adjacency m.2.1).getD
              ([] : List (String × ℚ))).filterMap (fun nw =>
                if c.edge_cost nw.2 = ⊤ then none
                else some ((m.1 + c.edge_cost nw.2, nw.1,
                  m.2.2 ++ [m.2.1]) : QItem))).length ≤ g.degreeOf m.2.1 :=
            List.length_filterMap_le _ _
          rw [phi] at hphi ⊢
          rw [hfilter2, List.length_append]
          omega

/-- `_build_path_result` on a single-node path: no edges, zero totals. -/
theorem build_single (g : SocGraph) (nid : String) (c : CostComputer)
    (p : PersonNode) (hp : getA g.people nid = some p) :
    build_path_result g [nid] c = .ok
      { node_ids := [nid]
        nodes := [mkPathNode g nid p]
        edges := []
        total_cost := 0
        total_strength := 0 } := by
  rw [build_path_result]
  simp only [List.mapM, List.mapM.loop, pathPairs]
  rw [hp]
  rfl

/-- C8: for existing start and goal ids, `dijkstra_shortest_path` returns
`None` when the goal is unreachable from the start through positive-weight
edges, and on `start == goal` returns the single-node path `[start]` with no
edges and zero total cost and total strength. -/
theorem claimC8 (g : SocGraph) (start goal : String)
    (hstart : containsA g.people start = true)
    (hgoal : containsA g.people goal = true) :
    (¬ Reach g start goal →
      dijkstra_shortest_path g start goal = .result none) ∧
    (start = goal → ∃ p, getA g.people start = some p ∧
      dijkstra_shortest_path g start goal = .result (some
        { node_ids := [start]
          nodes := [mkPathNode g start p]
          edges := []
          total_cost := 0
          total_strength := 0 })) := by
  constructor
  · intro hn
    rw [dijkstra_shortest_path, dijkstraFuel,
      if_neg (by rw [hstart]; exact (by decide)),
      if_neg (by rw [hgoal]; exact (by decide))]
    refine dijkstraLoop_unreach g start goal _ hn (fuelBound g start)
      [((0 : Qinf), start, ([] : List String))] [] ?_ ?_ ?_ ?_
    · intro it hit
      rcases List.mem_cons.mp hit with rfl | h
      · exact Reach.refl
      · cases h
    · intro it hit
      rcases List.mem_cons.mp hit with rfl | h
      · exact start_mem_allNodes g start
      · cases h
    · intro nb hnb
      cases hnb
    · rw [phi, fuelBound]
      rw [List.filter_eq_self.mpr
        (fun a _ => (rfl :
          (fun n => !(containsA ([] : List (String × Qinf)) n)) a = true)),
        List.length_singleton]
  · intro heq
    subst heq
    obtain ⟨p, hp⟩ := getA_isSome_of_contains g.people start hstart
    refine ⟨p, hp, ?_⟩
    have hfb : fuelBound g start
        = ((allNodes g start).map (fun n => g.degreeOf n + 1)).sum + 1 := by
      rw [fuelBound]
      omega
    rw [dijkstra_shortest_path, dijkstraFuel,
      if_neg (by rw [hstart]; exact (by decide)),
      if_neg (by rw [hstart]; exact (by decide)), hfb,
      dijkstraLoop_hit g start (computerOf g CostStrategy.dynamic 100)
        (((allNodes g start).map (fun n => g.degreeOf n + 1)).sum)
        [((0 : Qinf), start, ([] : List String))] []
        ((0 : Qinf), start, ([] : List String)) [] rfl rfl rfl,
      List.nil_append,
      build_single g start (computerOf g CostStrategy.dynamic 100) p hp]

def gW8 : SocGraph :=
  { people := [("a", { id := "a" }), ("b", { id := "b" }), ("z", { id := "z" })]
    adjacency := [("a", [("b", 5)]), ("b", [("a", 5)]), ("z", [])]
    edge_contexts := []
    max_weight_cache := 5
    max_weight_stale := false }

/-- C8 witness: on `gW8` (edge a↔b of weight 5, isolated `z`), the pair
(a, z) is disconnected and the search returns `None`; the pair (b, b) yields
the single-node path `[b]` with zero cost and strength. -/
theorem claimC8_witness :
    dijkstra_shortest_path gW8 "a" "z" = .result none ∧
    (∃ p, getA gW8.people "b" = some p ∧
      dijkstra_shortest_path gW8 "b" "b" = .result (some
        { node_ids := ["b"]
          nodes := [mkPathNode gW8 "b" p]
          edges := []
          total_cost := 0
          total_strength := 0 })) :=
  ⟨(claimC8 gW8 "a" "z" (by decide) (by decide)).1
      (fun h => absurd
        (reach_subset gW8 "a" ["a", "b"] (by decide) (by decide) "z" h)
        (by decide)),
   (claimC8 gW8 "b" "b" (by decide) (by decide)).2 rfl⟩

/-! ## Claim C1: path totals and the dynamic cost model -/

theorem mapM_loop_ok {α β : Type} (f : α → Except GraphError β) :
    ∀ (l : List α) (acc out : List β),
    List.mapM.loop f l acc = .ok out →
    ∀ b ∈ out, b ∈ acc.reverse ∨ ∃ a ∈ l, f a = .ok b := by
  intro l
  induction l with
  | nil =>
    intro acc out h
    have h2 : (Except.ok acc.reverse : Except GraphError (List β))
        = .ok out := h
    simp only [Except.ok.injEq] at h2
    subst h2
    exact fun b hb => Or.inl hb
  | cons a as ih =>
    intro acc out h
    simp only [List.mapM.loop] at h
    cases hfa : f a with
    | error e =>
      rw [hfa] at h
      have h2 : (Except.error e : Except GraphError (List β)) = .ok out := h
      cases h2
    | ok b =>
      rw [hfa] at h
      have h2 : List.mapM.loop f as (b :: acc) = .ok out := h
      intro x hx
      rcases ih (b :: acc) out h2 x hx with hacc | hex
      · rw [List.reverse_cons] at hacc
        rcases List.mem_append.mp hacc with h3 | h3
        · exact Or.inl h3
        · simp only [List.mem_singleton] at h3
          subst h3
          exact Or.inr ⟨a, List.mem_cons_self _ _, hfa⟩
      · obtain ⟨aa, haa, hfaa⟩ := hex
        exact Or.inr ⟨aa, List.mem_cons_of_mem _ haa, hfaa⟩

theorem mapM_ok_mem {α β : Type} (f : α → Except GraphError β) (l : List α)
    (out : List β) (h : l.mapM f = .ok out) :
    ∀ b ∈ out, ∃ a ∈ l, f a = .ok b := by
  intro b hb
  have h2 : List.mapM.loop f l [] = .ok out := h
  rcases mapM_loop_ok f l [] out h2 b hb with hacc | hex
  · exact absurd hacc (List.not_mem_nil b)
  · exact hex

/-- Inverting a successful `Except` bind. -/
theorem exceptBind_ok {α β : Type} (x : Except GraphError α)
    (f : α → Except GraphError β) (b : β)
    (h : x >>= f = .ok b) : ∃ a, x = .ok a ∧ f a = .ok b := by
  cases x with
  | error e =>
    have h2 : (Except.error e : Except GraphError β) = .ok b := h
    cases h2
  | ok a => exact ⟨a, rfl, h⟩

/-- What `_build_path_result` guarantees about any result it returns: the
totals are the sums over the edge snapshots, and every edge snapshot carries
the stored weight together with its computed cost. -/
theorem build_ok (g : SocGraph) (nodes : List String) (c : CostComputer)
    (r : PathResult) (h : build_path_result g nodes c = .ok r) :
    r.node_ids = nodes ∧
    r.total_cost = (r.edges.map (fun e => e.cost)).sum ∧
    r.total_strength = (r.edges.map (fun e => e.weight)).sum ∧
    ∀ e ∈ r.edges, e.cost = c.edge_cost e.weight ∧
      g.get_edge_weight e.source e.target = some e.weight := by
  rw [build_path_result] at h
  obtain ⟨edges, hedges, h2⟩ := exceptBind_ok _ _ _ h
  obtain ⟨payload, hpay, h3⟩ := exceptBind_ok _ _ _ h2
  have hrec := Except.ok.inj h3
  subst hrec
  refine ⟨rfl, rfl, rfl, ?_⟩
  intro e he
  obtain ⟨st, _, hfst⟩ := mapM_ok_mem _ _ _ hedges e he
  cases hw : g.get_edge_weight st.1 st.2 with
  | none =>
    rw [hw] at hfst
    have h4 : (Except.error GraphError.corruptPath
        : Except GraphError PathEdge) = .ok e := hfst
    cases h4
  | some w =>
    rw [hw] at hfst
    have hrec2 := Except.ok.inj hfst
    subst hrec2
    exact ⟨rfl, hw⟩

theorem dijkstraLoop_zero (g : SocGraph) (goal : String) (c : CostComputer)
    (queue : List QItem) (best : List (String × Qinf)) (item : QItem)
    (rest : List QItem) (hq : popMin queue = some (item, rest)) :
    dijkstraLoop g goal c 0 queue best = .fuelOut := by
  rw [dijkstraLoop, hq]

/-- Every successful loop outcome is a `_build_path_result` output. -/
theorem dijkstraLoop_result_some (g : SocGraph) (goal : String)
    (c : CostComputer) :
    ∀ (fuel : ℕ) (queue : List QItem) (best : List (String × Qinf))
      (r : PathResult),
    dijkstraLoop g goal c fuel queue best = .result (some r) →
    ∃ trail, build_path_result g trail c = .ok r := by
  intro fuel
  induction fuel with
  | zero =>
    intro queue best r h
    cases hq : popMin queue with
    | none =>
      rw [dijkstraLoop_pop_none g goal c 0 queue best hq] at h
      simp at h
    | some mr =>
      obtain ⟨m, rest⟩ := mr
      rw [dijkstraLoop_zero g goal c queue best m rest hq] at h
      cases h
  | succ fuel ih =>
    intro queue best r h
    cases hq : popMin queue with
    | none =>
      rw [dijkstraLoop_pop_none g goal c _ queue best hq] at h
      simp at h
    | some mr =>
      obtain ⟨m, rest⟩ := mr
      by_cases hskip : (match getA best m.2.1 with
        | some b => decide (b ≤ m.1)
        | none => false) = true
      · rw [dijkstraLoop_skip g goal c fuel queue best m rest hq hskip] at h
        exact ih rest best r h
      · have hskipf : (match getA best m.2.1 with
          | some b => decide (b ≤ m.1)
          | none => false) = false := Bool.eq_false_iff.mpr hskip
        by_cases hg : m.2.1 = goal
        · rw [dijkstraLoop_hit g goal c fuel queue best m rest hq hskipf hg]
            at h
          cases hb : build_path_result g (m.2.2 ++ [m.2.1]) c with
          | ok ra =>
            rw [hb] at h
            have h2 : DijkstraOut.result (some ra) = .result (some r) := h
            simp only [DijkstraOut.result.injEq, Option.some.injEq] at h2
            subst h2
            exact ⟨m.2.2 ++ [m.2.1], hb⟩
          | error e =>
            rw [hb] at h
            have h2 : DijkstraOut.failure e = .result (some r) := h
            cases h2
        · rw [dijkstraLoop_expand g goal c fuel queue best m rest hq hskipf hg]
            at h
          exact ih _ _ r h

/-- C1 (as the code behaves): whenever `dijkstra_shortest_path` (default
DYNAMIC strategy, `fixed_high = 100`) returns a path, the path's total cost
is the sum of its edges' *costs* and its total strength the sum of its
edges' *weights*, where each edge's cost is the dynamic transform
`max(max_weight, w) - w + 1` of its stored weight `w` — not the weight
itself. -/
theorem claimC1 (g : SocGraph) (start goal : String) (r : PathResult)
    (h : dijkstra_shortest_path g start goal = .result (some r)) :
    r.total_cost = (r.edges.map (fun e => e.cost)).sum ∧
    r.total_strength = (r.edges.map (fun e => e.weight)).sum ∧
    ∀ e ∈ r.edges,
      e.cost = (computerOf g CostStrategy.dynamic 100).edge_cost e.weight ∧
      g.get_edge_weight e.source e.target = some e.weight := by
  rw [dijkstra_shortest_path, dijkstraFuel] at h
  by_cases h1 : (containsA g.people start) = false
  · rw [if_pos h1] at h
    cases h
  · rw [if_neg h1] at h
    by_cases h2 : (containsA g.people goal) = false
    · rw [if_pos h2] at h
      cases h
    · rw [if_neg h2] at h
      obtain ⟨trail, hb⟩ := dijkstraLoop_result_some g goal
        (computerOf g CostStrategy.dynamic 100) (fuelBound g start)
        [((0 : Qinf), start, ([] : List String))] [] r h
      obtain ⟨_, hc, hs, he⟩ := build_ok g trail
        (computerOf g CostStrategy.dynamic 100) r hb
      exact ⟨hc, hs, he⟩

/-- The example graph of the claim: symmetric edges A-B=5, B-C=3, A-C=1,
C-D=4, B-D=2, built through the public API. -/
def gW1 : SocGraph :=
  (((((((((SocGraph.empty.add_person { id := "A" } true).1.add_person
    { id := "B" } true).1.add_person { id := "C" } true).1.add_person
    { id := "D" } true).1.add_connection "A" "B" (.fin 5) [] true).1.add_connection
    "B" "C" (.fin 3) [] true).1.add_connection "A" "C" (.fin 1) [] true).1.add_connection
    "C" "D" (.fin 4) [] true).1.add_connection "B" "D" (.fin 2) [] true).1

/-- The path result `dijkstra_shortest_path` actually returns on `gW1` for
(A, D): the node sequence [A, B, D], dynamic costs 1 and 4, strength 7. -/
def rEx : PathResult :=
  { node_ids := ["A", "B", "D"]
    nodes := [mkPathNode gW1 "A" { id := "A" },
      mkPathNode gW1 "B" { id := "B" },
      mkPathNode gW1 "D" { id := "D" }]
    edges := [{ source := "A", target := "B", weight := 5, cost := 1, contexts := [] },
      { source := "B", target := "D", weight := 2, cost := 4, contexts := [] }]
    total_cost := 5
    total_strength := 7 }

set_option maxRecDepth 1000000

/-- C1 counterexample: on the claim's own example graph the returned node
sequence is [A, B, D] — not [A, C, D] — and while the total cost is 5, it is
the sum of dynamic costs (1 + 4), not the sum of weights (5 + 2 = 7); the
A→B edge has cost 1 against weight 5. -/
theorem claimC1_counterexample :
    dijkstra_shortest_path gW1 "A" "D" = .result (some rEx) ∧
    rEx.node_ids = ["A", "B", "D"] ∧
    ¬(rEx.node_ids = ["A", "C", "D"]) ∧
    rEx.total_cost = (5 : Qinf) ∧
    rEx.total_strength = 7 ∧
    ¬(rEx.total_cost = ((rEx.total_strength : ℚ) : Qinf)) ∧
    (∃ e ∈ rEx.edges, ¬(e.cost = ((e.weight : ℚ) : Qinf))) := by
  decide

/-- C1 witness: the general theorem applied to the concrete run on `gW1`. -/
theorem claimC1_witness :
    dijkstra_shortest_path gW1 "A" "D" = .result (some rEx) ∧
    rEx.total_cost = (rEx.edges.map (fun e => e.cost)).sum ∧
    rEx.total_strength = (rEx.edges.map (fun e => e.weight)).sum ∧
    ∀ e ∈ rEx.edges,
      e.cost = (computerOf gW1 CostStrategy.dynamic 100).edge_cost e.weight ∧
      gW1.get_edge_weight e.source e.target = some e.weight :=
  ⟨by decide,
   (claimC1 gW1 "A" "D" rEx (by decide)).1,
   (claimC1 gW1 "A" "D" rEx (by decide)).2.1,
   (claimC1 gW1 "A" "D" rEx (by decide)).2.2⟩

end SocClimb
